import Mathlib

/-!
# ALSA duplex pipeline: ring buffer, gain stage and prefill policy

A shallow embedding of `examples/duplex_main.cpp`.

* Bytes (`uint8_t`) are natural numbers, buffers are lists of bytes.
* `size_t` values are natural numbers.  The subtractions of the ring
  (`n - written`, `cap_ - size_`, `cap_ - wpos`, `cap_ - head_`, `size_ -= can`)
  are only evaluated where the minuend is at least the subtrahend (this is part
  of the invariant proved below), and `head_ + size_ < 2 * cap_` stays far below
  `2^64` for every capacity a `std::vector<uint8_t>` can hold, so no `size_t`
  operation of the ring wraps.
* A `memcpy` that leaves its source or destination buffer is undefined
  behaviour; the embedding returns `none` there.
* Threads are interleaved by an explicit list of scheduler events; the mutex
  `mu_` is held exactly by a thread whose program counter is `PC.locked`.
-/

namespace Duplex

/-! ## The ring buffer (`class Ring`) -/

/-- The data members of `class Ring`: backing storage, capacity, read offset
and occupancy. -/
structure Ring where
  buf_ : List Nat
  cap_ : Nat
  head_ : Nat
  size_ : Nat
deriving DecidableEq, Repr

/-- The constructor `Ring(size_t cap) : buf_(cap), cap_(cap)`: `cap` zero bytes,
`head_` and `size_` default to zero. -/
def Ring.new (cap : Nat) : Ring :=
  { buf_ := List.replicate cap 0, cap_ := cap, head_ := 0, size_ := 0 }

/-- The method `sizeBytes()`. -/
def Ring.sizeBytes (r : Ring) : Nat := r.size_

/-- The method `capacity()`. -/
def Ring.capacity (r : Ring) : Nat := r.cap_

/-- The call `std::memcpy(dst + dpos, src + spos, k)`: bytes `spos .. spos+k` of
`src` replace bytes `dpos .. dpos+k` of `dst`.  Leaving either buffer is
undefined behaviour (`none`). -/
def memcpy (dst : List Nat) (dpos : Nat) (src : List Nat) (spos : Nat) (k : Nat) :
    Option (List Nat) :=
  if dpos + k ≤ dst.length ∧ spos + k ≤ src.length then
    some (dst.take dpos ++ (src.drop spos).take k ++ dst.drop (dpos + k))
  else none

/-- The critical section of `writeBlocking` after the break test (the lines from
`size_t can = ...` to `written += can`).  Returns the new ring and the new value
of `written`.  The expression `&buf_[wpos]` needs `wpos` to be an index of the
storage. -/
def Ring.writeBlockingCopy (r : Ring) (data : List Nat) (n written : Nat) : Option (Ring × Nat) :=
  let can := min (n - written) (r.cap_ - r.size_)
  let wpos := (r.head_ + r.size_) % r.cap_
  let tail_space := r.cap_ - wpos
  let first := min can tail_space
  if wpos < r.buf_.length then do
    let b1 ← memcpy r.buf_ wpos data written first
    let b2 ← if can > first then memcpy b1 0 data (written + first) (can - first) else some b1
    some ({ r with buf_ := b2, size_ := r.size_ + can }, written + can)
  else none

/-- The critical section of `readBlocking` after the break test (the lines from
`size_t can = ...` to `got += can`).  Returns the new ring, the new contents of
the caller's buffer `out` and the new value of `got`. -/
def Ring.readBlockingCopy (r : Ring) (out : List Nat) (n got : Nat) : Option (Ring × List Nat × Nat) :=
  let can := min (n - got) r.size_
  let first := min can (r.cap_ - r.head_)
  if r.head_ < r.buf_.length then do
    let o1 ← memcpy out got r.buf_ r.head_ first
    let o2 ← if can > first then memcpy o1 (got + first) r.buf_ 0 (can - first) else some o1
    some ({ r with head_ := (r.head_ + can) % r.cap_, size_ := r.size_ - can }, o2, got + can)
  else none

/-- The method `close()`: takes the mutex and notifies both condition
variables.  No data member is assigned. -/
def Ring.close (r : Ring) : Ring := r

/-- The wait predicate of `writeBlocking`: `!g_running || size_ < cap_`. -/
def Ring.spaceCond (g_running : Bool) (r : Ring) : Bool :=
  !g_running || decide (r.size_ < r.cap_)

/-- The wait predicate of `readBlocking`: `!g_running || size_ > 0`. -/
def Ring.dataCond (g_running : Bool) (r : Ring) : Bool :=
  !g_running || decide (r.size_ > 0)

/-- The buffered bytes, oldest first: byte `i` is `buf_[(head_ + i) % cap_]`. -/
def Ring.contents (r : Ring) : List Nat :=
  (List.range r.size_).map fun i => r.buf_.getD ((r.head_ + i) % r.cap_) 0

/-- The representation invariant of the ring. -/
def Ring.Inv (r : Ring) : Prop :=
  r.buf_.length = r.cap_ ∧ 0 < r.cap_ ∧ r.size_ ≤ r.cap_ ∧ r.head_ < r.cap_

/-! ## `writeBlocking` and `readBlocking` as threads

The program has one thread that calls `writeBlocking` (capture) and one that
calls `readBlocking` (playback).  A call is executed in atomic steps; between
two steps of a thread any step of the other thread, a `close()` or the clearing
of `g_running` may happen.
-/

/-- Where a thread stands inside `writeBlocking` / `readBlocking`. -/
inductive PC
  /-- About to evaluate the `while` condition. -/
  | guard
  /-- Inside `cv.wait(lk, pred)`: the predicate has not held yet, `mu_` is free. -/
  | wait
  /-- The wait predicate held; `mu_` is owned; next is the break test. -/
  | locked
  /-- The call has returned (or none was made yet). -/
  | ret
deriving DecidableEq, Repr

/-- The arguments and the local variable of a `writeBlocking(data, n)` call;
after the return `written` is the returned count. -/
structure Writer where
  data : List Nat
  n : Nat
  written : Nat
  pc : PC
deriving DecidableEq, Repr

/-- The arguments and the local variable of a `readBlocking(out, n)` call;
`out` is the caller's buffer, after the return `got` is the returned count. -/
structure Reader where
  out : List Nat
  n : Nat
  got : Nat
  pc : PC
deriving DecidableEq, Repr

/-- The shared state (`g_running`, the ring), the two threads, and two history
lists that the code does not have: every byte a write pass took from its
caller (`accepted`) and every byte a read pass put into its caller's buffer
(`delivered`), in the order of the passes.  `fault` records that a `memcpy`
left its buffers. -/
structure Sys where
  g_running : Bool
  ring : Ring
  w : Writer
  rd : Reader
  accepted : List Nat
  delivered : List Nat
  fault : Bool
deriving DecidableEq, Repr

/-- Program start: `g_running(true)`, a fresh ring, no call in progress. -/
def Sys.init (cap : Nat) : Sys :=
  { g_running := true, ring := Ring.new cap,
    w := { data := [], n := 0, written := 0, pc := PC.ret },
    rd := { out := [], n := 0, got := 0, pc := PC.ret },
    accepted := [], delivered := [], fault := false }

/-- One atomic step of the thread inside `writeBlocking`. -/
def Sys.writeBlockingStep (s : Sys) : Sys :=
  match s.w.pc with
  | PC.ret => s
  | PC.guard =>
    -- while (g_running && written < n)
    if s.g_running && decide (s.w.written < s.w.n) then { s with w := { s.w with pc := PC.wait } }
    else { s with w := { s.w with pc := PC.ret } }
  | PC.wait =>
    -- space_cv_.wait(lk, [&]{ return !g_running || size_ < cap_; })
    if s.rd.pc = PC.locked then s
    else if s.ring.spaceCond s.g_running then { s with w := { s.w with pc := PC.locked } }
    else s
  | PC.locked =>
    -- if (!g_running) break;
    if !s.g_running then { s with w := { s.w with pc := PC.ret } }
    else
      match s.ring.writeBlockingCopy s.w.data s.w.n s.w.written with
      | none => { s with fault := true }
      | some (r, written) =>
        { s with
          ring := r
          w := { s.w with written := written, pc := PC.guard }
          accepted := s.accepted ++ (s.w.data.drop s.w.written).take (written - s.w.written) }

/-- One atomic step of the thread inside `readBlocking`. -/
def Sys.readBlockingStep (s : Sys) : Sys :=
  match s.rd.pc with
  | PC.ret => s
  | PC.guard =>
    -- while (g_running && got < n)
    if s.g_running && decide (s.rd.got < s.rd.n) then { s with rd := { s.rd with pc := PC.wait } }
    else { s with rd := { s.rd with pc := PC.ret } }
  | PC.wait =>
    -- data_cv_.wait(lk, [&]{ return !g_running || size_ > 0; })
    if s.w.pc = PC.locked then s
    else if s.ring.dataCond s.g_running then { s with rd := { s.rd with pc := PC.locked } }
    else s
  | PC.locked =>
    -- if (!g_running && size_ == 0) break;
    if !s.g_running && decide (s.ring.size_ = 0) then { s with rd := { s.rd with pc := PC.ret } }
    else
      match s.ring.readBlockingCopy s.rd.out s.rd.n s.rd.got with
      | none => { s with fault := true }
      | some (r, out, got) =>
        { s with
          ring := r
          rd := { s.rd with out := out, got := got, pc := PC.guard }
          delivered := s.delivered ++ (out.drop s.rd.got).take (got - s.rd.got) }

/-- What the scheduler can let happen next. -/
inductive Ev
  /-- The assignment `g_running = false` (signal handler, or `main` after the
  control thread ended). -/
  | stop
  /-- A call of `ring.close()`. -/
  | close
  /-- The writer thread, not inside a call, enters `writeBlocking(data, n)`. -/
  | wcall (data : List Nat) (n : Nat)
  /-- The reader thread, not inside a call, enters `readBlocking(out, n)`. -/
  | rcall (out : List Nat) (n : Nat)
  /-- The writer thread takes a step. -/
  | wstep
  /-- The reader thread takes a step. -/
  | rstep
deriving DecidableEq, Repr

/-- The caller's buffer holds at least the `n` bytes the call may touch. -/
def Ev.wf : Ev → Prop
  | Ev.wcall data n => n ≤ data.length
  | Ev.rcall out n => n ≤ out.length
  | _ => True

instance : DecidablePred Ev.wf := fun e => by
  cases e <;> unfold Ev.wf <;> infer_instance

/-- The effect of one event.  After undefined behaviour nothing is modelled. -/
def Sys.step (s : Sys) (e : Ev) : Sys :=
  if s.fault then s
  else
    match e with
    | Ev.stop => { s with g_running := false }
    | Ev.close => { s with ring := s.ring.close }
    | Ev.wcall data n =>
      if s.w.pc = PC.ret then { s with w := { data := data, n := n, written := 0, pc := PC.guard } }
      else s
    | Ev.rcall out n =>
      if s.rd.pc = PC.ret then { s with rd := { out := out, n := n, got := 0, pc := PC.guard } }
      else s
    | Ev.wstep => s.writeBlockingStep
    | Ev.rstep => s.readBlockingStep

/-- The state after a schedule. -/
def Sys.run (s : Sys) (evs : List Ev) : Sys := evs.foldl Sys.step s

/-- What the capture thread does to the shared state after its loop is left
(by `break` on a failed `Recover()`, or because `g_running` was seen cleared):
the single call `ring.close()`.  The thread never assigns `g_running`. -/
def captureAfterLoop : List Ev := [Ev.close]

/-! ## Invariant, byte-independence and the schedules of the scenarios -/

/-- The invariant of the whole system: no undefined behaviour so far, the ring
invariant, both calls inside their buffers, the FIFO relation between the
histories and the buffered bytes, a returned call is complete unless the flag
is cleared, the mutex has one owner, and the bytes taken and delivered by the
current calls are the ends of the histories. -/
structure Sys.Inv (s : Sys) : Prop where
  nofault : s.fault = false
  ring : s.ring.Inv
  wle : s.w.written ≤ s.w.n
  wbuf : s.w.n ≤ s.w.data.length
  rle : s.rd.got ≤ s.rd.n
  rbuf : s.rd.n ≤ s.rd.out.length
  fifo : s.accepted = s.delivered ++ s.ring.contents
  wret : s.w.pc = PC.ret → s.w.written = s.w.n ∨ s.g_running = false
  rret : s.rd.pc = PC.ret → s.rd.got = s.rd.n ∨ s.g_running = false
  mutex : ¬(s.w.pc = PC.locked ∧ s.rd.pc = PC.locked)
  wsuf : s.w.data.take s.w.written <:+ s.accepted
  rsuf : s.rd.out.take s.rd.got <:+ s.delivered

/-- The ring with `f` applied to every stored byte. -/
def Ring.mapBytes (f : Nat → Nat) (r : Ring) : Ring := { r with buf_ := r.buf_.map f }

/-- The system with `f` applied to every byte of every buffer. -/
def Sys.mapBytes (f : Nat → Nat) (s : Sys) : Sys :=
  { s with
    ring := s.ring.mapBytes f
    w := { s.w with data := s.w.data.map f }
    rd := { s.rd with out := s.rd.out.map f }
    accepted := s.accepted.map f
    delivered := s.delivered.map f }

/-- The event with `f` applied to every byte of the caller's buffer. -/
def Ev.mapBytes (f : Nat → Nat) : Ev → Ev
  | Ev.wcall data n => Ev.wcall (data.map f) n
  | Ev.rcall out n => Ev.rcall (out.map f) n
  | e => e

/-- The numbers of a state: everything except the values of the bytes. -/
structure Shape where
  g_running : Bool
  cap_ : Nat
  head_ : Nat
  size_ : Nat
  bufLen : Nat
  wn : Nat
  written : Nat
  wpc : PC
  dataLen : Nat
  rn : Nat
  got : Nat
  rpc : PC
  outLen : Nat
  acceptedLen : Nat
  deliveredLen : Nat
  fault : Bool
deriving DecidableEq, Repr

/-- The shape of a state. -/
def Sys.shape (s : Sys) : Shape :=
  { g_running := s.g_running, cap_ := s.ring.cap_, head_ := s.ring.head_, size_ := s.ring.size_,
    bufLen := s.ring.buf_.length, wn := s.w.n, written := s.w.written, wpc := s.w.pc,
    dataLen := s.w.data.length, rn := s.rd.n, got := s.rd.got, rpc := s.rd.pc,
    outLen := s.rd.out.length, acceptedLen := s.accepted.length,
    deliveredLen := s.delivered.length, fault := s.fault }

/-- The schedule of the first pass of the scenario: the writer enters
`writeBlocking(data, 1500)`, passes the loop guard, passes the wait and copies. -/
def scenarioFill (data : List Nat) : List Ev :=
  [Ev.wcall data 1500, Ev.wstep, Ev.wstep, Ev.wstep]

/-- A schedule that completes the scenario: the writer re-enters the loop and
finds the ring full; the reader enters `readBlocking(out, 1500)` and takes the
1000 buffered bytes; the writer copies the remaining 500 bytes and returns; the
reader takes them and returns. -/
def scenarioDrain (out : List Nat) : List Ev :=
  [Ev.wstep, Ev.wstep, Ev.rcall out 1500, Ev.rstep, Ev.rstep, Ev.rstep,
   Ev.wstep, Ev.wstep, Ev.wstep, Ev.rstep, Ev.rstep, Ev.rstep, Ev.rstep]

/-- The schedule of the drain scenario: 200 bytes are written, `g_running` is
cleared, `close()` is called, then the reader calls `readBlocking(out, 500)` and
takes its first step (the loop guard). -/
def drainSchedule : List Ev :=
  [Ev.wcall (List.replicate 200 7) 200, Ev.wstep, Ev.wstep, Ev.wstep, Ev.wstep,
   Ev.stop, Ev.close, Ev.rcall (List.replicate 500 0) 500, Ev.rstep]

/-- The reader enters `readBlocking(out, 500)` on the fresh (empty) ring,
passes the loop guard and suspends in `data_cv_.wait`. -/
def readerSuspended : List Ev :=
  [Ev.rcall (List.replicate 500 0) 500, Ev.rstep, Ev.rstep]

/-- The writer enters `writeBlocking(data, 1500)`, fills the ring of capacity
1000 in its first pass, passes the loop guard again and suspends in
`space_cv_.wait`. -/
def writerSuspended : List Ev :=
  [Ev.wcall (List.replicate 1500 1) 1500, Ev.wstep, Ev.wstep, Ev.wstep, Ev.wstep, Ev.wstep]

/-! ## The gain stage (`user_process`)

`float` is IEEE-754 binary32 with round-to-nearest-even, evaluated in single
precision.  The two zeros are both written with mantissa 0; all comparisons are
by value, so they agree on them, as the hardware does.
-/

/-- A value of type `float`: `finite neg m e` is `(-1)^neg * m * 2^e`. -/
inductive F32
  | finite (neg : Bool) (m : Nat) (e : Int)
  | inf (neg : Bool)
  | nan
deriving DecidableEq, Repr

/-- The finite values a `float` can hold: 24 bits of mantissa, exponents from
the smallest subnormal `2^-149` to the largest binade `2^104 * (2^24 - 1)`. -/
def F32.Representable : F32 → Prop
  | F32.finite _ m e => m < 2 ^ 24 ∧ -149 ≤ e ∧ e ≤ 104
  | _ => True

/-- The mantissa with its sign. -/
def F32.signed (neg : Bool) (m : Nat) : Int := if neg then -(m : Int) else (m : Int)

/-- The comparison `x < y` of two floats; false when either is NaN. -/
def F32.lt : F32 → F32 → Bool
  | F32.finite n1 m1 e1, F32.finite n2 m2 e2 =>
    decide (F32.signed n1 m1 * 2 ^ (e1 - min e1 e2).toNat <
      F32.signed n2 m2 * 2 ^ (e2 - min e1 e2).toNat)
  | F32.finite _ _ _, F32.inf n2 => !n2
  | F32.inf n1, F32.finite _ _ _ => n1
  | F32.inf n1, F32.inf n2 => n1 && !n2
  | _, _ => false

/-- The comparison `x == y` of two floats; false when either is NaN. -/
def F32.eq : F32 → F32 → Bool
  | F32.finite n1 m1 e1, F32.finite n2 m2 e2 =>
    decide (F32.signed n1 m1 * 2 ^ (e1 - min e1 e2).toNat =
      F32.signed n2 m2 * 2 ^ (e2 - min e1 e2).toNat)
  | F32.inf n1, F32.inf n2 => n1 == n2
  | _, _ => false

/-- The comparison `x >= y`, that is `y < x || y == x`. -/
def F32.ge (x y : F32) : Bool := F32.lt y x || F32.eq y x

/-- How many low bits of `M` do not fit into a 24-bit mantissa (`fuel` bounds
the search; `M` itself is always enough). -/
def F32.excessBits : Nat → Nat → Nat
  | 0, _ => 0
  | fuel + 1, M => if M < 2 ^ 24 then 0 else F32.excessBits fuel (M / 2) + 1

/-- The float nearest to `(-1)^neg * M * 2^E`, ties to the even mantissa;
magnitudes that round to `2^128` or more become infinite. -/
def F32.round (neg : Bool) (M : Nat) (E : Int) : F32 :=
  let k := max (F32.excessBits M M) (-149 - E).toNat
  let q := M / 2 ^ k
  let r := M % 2 ^ k
  let q' := if 2 * r > 2 ^ k ∨ (2 * r = 2 ^ k ∧ q % 2 = 1) then q + 1 else q
  if 0 ≤ E + k ∧ 2 ^ 128 ≤ q' * 2 ^ (E + k).toNat then F32.inf neg
  else F32.finite neg q' (E + k)

/-- The conversion of an integer to `float`. -/
def F32.ofInt (i : Int) : F32 := F32.round (decide (i < 0)) i.natAbs 0

/-- The product of two floats. -/
def F32.mul : F32 → F32 → F32
  | F32.finite n1 m1 e1, F32.finite n2 m2 e2 => F32.round (xor n1 n2) (m1 * m2) (e1 + e2)
  | F32.finite n1 m1 _, F32.inf n2 => if m1 = 0 then F32.nan else F32.inf (xor n1 n2)
  | F32.inf n1, F32.finite n2 m2 _ => if m2 = 0 then F32.nan else F32.inf (xor n1 n2)
  | F32.inf n1, F32.inf n2 => F32.inf (xor n1 n2)
  | _, _ => F32.nan

/-- The conversion `static_cast<int16_t>(x)`: the fraction is discarded.  A
value whose integer part is not an `int16_t`, an infinity among them, has no
result that the language or the processors agree on (`none`); the loop of
`user_process` clamps before it converts, so it never converts one.  A NaN
passes both clamps (every comparison with it is false); the language defines
no result for it either, but the conversion instructions do and agree: on
x86-64 `cvttss2si` answers `0x80000000`, of which `int16_t` keeps the low 16
bits, on AArch64 `fcvtzs` answers 0; the value stored is 0. -/
def F32.toInt16 : F32 → Option Int
  | F32.finite neg m e =>
    let t : Int := F32.signed neg (if 0 ≤ e then m * 2 ^ e.toNat else m / 2 ^ (-e).toNat)
    if -32768 ≤ t ∧ t ≤ 32767 then some t else none
  | F32.inf _ => none
  | F32.nan => some 0

/-- The literal `1.0f`. -/
def F32.one : F32 := F32.finite false 1 0

/-- The literal `0.0f`. -/
def F32.zero : F32 := F32.finite false 0 0

/-- The last three statements of the loop body of `user_process`, from the
product `x` to the value stored in `samples[i]`. -/
def clampCast (x : F32) : Option Int :=
  -- if (x > 32767.f) x = 32767.f;
  let x := if F32.lt (F32.ofInt 32767) x then F32.ofInt 32767 else x
  -- if (x < -32768.f) x = -32768.f;
  let x := if F32.lt x (F32.ofInt (-32768)) then F32.ofInt (-32768) else x
  -- samples[i] = static_cast<int16_t>(x);
  F32.toInt16 x

/-- The body of the loop of `user_process` for one sample `s = samples[i]`:
`float x = samples[i] * gain;` followed by the clamps and the cast.  Returns the
new value of `samples[i]`. -/
def processSample (gain : F32) (s : Int) : Option Int :=
  clampCast (F32.mul (F32.ofInt s) gain)

/-- The spec's "clamp to the representable range" of a 16-bit signed sample. -/
def saturate (t : Int) : Int := max (-32768) (min 32767 t)

/-- The integer part of the magnitude `q * 2^ex`. -/
def magFloor (q : Nat) (ex : Int) : Nat :=
  if 0 ≤ ex then q * 2 ^ ex.toNat else q / 2 ^ (-ex).toNat

/-- The spec's "clamp to the representable range" of a product `x`: the
value of `x` with its fraction discarded, saturated to the range of a 16-bit
sample; an infinite product gives the bound on its side, and a NaN, which has
no value, gives 0. -/
def saturateFloat : F32 → Int
  | F32.finite neg q ex => saturate (F32.signed neg (magFloor q ex))
  | F32.inf neg => if neg then -32768 else 32767
  | F32.nan => 0

/-- The `float` product `s * g` was rounded up to the next integer: its
integer part is one more than the integer part of the exact product of `s`
and `g = m * 2^e`, which is below 32768 (from 32768 on the value stored is the
bound of the range either way). -/
def productLifted (s : Int) (g : F32) : Bool :=
  match g, F32.mul (F32.ofInt s) g with
  | F32.finite _ m e, F32.finite _ q ex =>
    decide (magFloor q ex = magFloor (s.natAbs * m) e + 1 ∧ magFloor (s.natAbs * m) e < 32768)
  | _, _ => false

/-- The exact product `s * (m * 2^e)` with its fraction discarded (rounded
toward zero), computed in unbounded integers. -/
def exactTrunc (s : Int) (m : Nat) (e : Int) : Int :=
  Int.sign s * (if 0 ≤ e then s.natAbs * m * 2 ^ e.toNat else s.natAbs * m / 2 ^ (-e).toNat : Nat)

/-- The exact product `s * (m * 2^e)` is an integer. -/
def exactIsInt (s : Int) (m : Nat) (e : Int) : Prop :=
  0 ≤ e ∨ 2 ^ (-e).toNat ∣ s.natAbs * m

/-- The loop `for (size_t i = ...; i < n; ++i)` with `k = n - i` iterations
left.  Reading `samples[i]` outside the buffer is undefined behaviour. -/
def processFrom (gain : F32) : Nat → Nat → List Int → Option (List Int)
  | 0, _, samples => some samples
  | k + 1, i, samples => do
    let s ← samples[i]?
    let v ← processSample gain s
    processFrom gain k (i + 1) (samples.set i v)

/-- The conversion of an `int` to `size_t`. -/
def toSizeT (x : Int) : Nat := (x % 2 ^ 64).toNat

/-- The function `user_process(samples, frames, channels)` with the value
`gain` loaded from `g_gain`; returns the new contents of `samples`. -/
def user_process (gain : F32) (samples : List Int) (frames : Nat) (channels : Int) :
    Option (List Int) :=
  if F32.eq gain F32.one then some samples
  else processFrom gain (frames * toSizeT channels % 2 ^ 64) 0 samples

/-- How the integer part `t` of the rounded magnitude relates to the integer
part `T` of the exact magnitude `M * 2^E`. -/
def RoundRel (M : Nat) (E : Int) (t : Nat) : Prop :=
  t = magFloor M E ∨
  (t = magFloor M E + 1 ∧ E < 0 ∧ ¬ 2 ^ (-E).toNat ∣ M) ∨
  (32768 ≤ t ∧ 32768 ≤ magFloor M E)

/-! ## The prefill policy (`wait_prefill`) and the sizes computed by `main` -/

/-- What a call of `wait_prefill` observes: `now k` is the `k`-th value returned
by `steady_clock::now()` (in nanoseconds), `running j` is `g_running` at the
`j`-th evaluation of the loop condition and `ring j` is the ring at the `j`-th
call of `ring.sizeBytes()`. -/
structure PrefillEnv where
  now : Nat → Int
  running : Nat → Bool
  ring : Nat → Ring

/-- The loop of `wait_prefill` from its `j`-th iteration on, followed by the
final `return ring.sizeBytes() >= target_bytes`.  `none`: the fuel ran out. -/
def wait_prefill_loop (env : PrefillEnv) (target_bytes : Nat) (deadline : Int) :
    Nat → Nat → Option Bool
  | 0, _ => none
  | fuel + 1, j =>
    -- while (g_running && steady_clock::now() < deadline)
    if env.running j && decide (env.now (j + 1) < deadline) then
      -- if (ring.sizeBytes() >= target_bytes) return true;
      if (env.ring j).sizeBytes ≥ target_bytes then some true
      -- std::this_thread::sleep_for(milliseconds(5));
      else wait_prefill_loop env target_bytes deadline fuel (j + 1)
    else some (decide ((env.ring j).sizeBytes ≥ target_bytes))

/-- The value `steady_clock::now() + milliseconds(timeout_ms)`. -/
def prefillDeadline (env : PrefillEnv) (timeout_ms : Int) : Int :=
  env.now 0 + timeout_ms * 1000000

/-- The function `wait_prefill(ring, target_bytes, timeout_ms)`. -/
def wait_prefill (env : PrefillEnv) (target_bytes : Nat) (timeout_ms : Int) (fuel : Nat) :
    Option Bool :=
  wait_prefill_loop env target_bytes (prefillDeadline env timeout_ms) fuel 0

/-- The `j`-th loop condition of `wait_prefill` holds: the flag is set and the
clock reads a time before the deadline. -/
def PrefillEnv.inWindow (env : PrefillEnv) (deadline : Int) (j : Nat) : Prop :=
  env.running j = true ∧ env.now (j + 1) < deadline

/-- The claim's right-hand side: some occupancy value polled inside the timeout
window (all loop conditions up to and including that poll held) reached the
target. -/
def PrefillEnv.ReachedInWindow (env : PrefillEnv) (target_bytes : Nat) (deadline : Int) : Prop :=
  ∃ j, (∀ i, i ≤ j → env.inWindow deadline i) ∧ target_bytes ≤ (env.ring j).sizeBytes

/-- Some occupancy value that the call reads reached the target: a poll inside
the window, or the one read made after the first loop condition that failed. -/
def PrefillEnv.ReachedAtRead (env : PrefillEnv) (target_bytes : Nat) (deadline : Int) : Prop :=
  ∃ j, (∀ i, i < j → env.inWindow deadline i) ∧ target_bytes ≤ (env.ring j).sizeBytes

/-- Between two consecutive evaluations of the loop condition the thread has
slept for at least 5 ms, and the steady clock never goes back. -/
def PrefillEnv.ClockAdvances (env : PrefillEnv) : Prop :=
  env.now 0 ≤ env.now 1 ∧ ∀ k, 1 ≤ k → env.now k + 5000000 ≤ env.now (k + 1)

/-- An observation in which the target is reached only after the deadline:
timeout 10 ms; the clock reads 0 ms when the deadline is computed and 0 ms,
6 ms, 12 ms, ... at the loop conditions; the ring is empty at the two polls
(0 ms and 6 ms) and holds 100 bytes from the third read on (12 ms). -/
def lateFillEnv : PrefillEnv :=
  { now := fun k => 6000000 * ((k : Int) - 1) + (if k = 0 then 6000000 else 0)
    running := fun _ => true
    ring := fun j => if j < 2 then Ring.new 1000 else { Ring.new 1000 with size_ := 100 } }

/-- The expression `bytes_per_sample * ch` (`int` arithmetic). -/
def frame_bytes (ch : Int) : Int := 2 * ch

/-- The expression `static_cast<size_t>(rate) * frame_bytes * ms / 1000` in
`size_t` arithmetic, evaluated from the left. -/
def bytesForMs (rate ch : Int) (ms : Int) : Nat :=
  (toSizeT rate * toSizeT (frame_bytes ch) % 2 ^ 64 * toSizeT ms % 2 ^ 64) / toSizeT 1000

/-- The constant `ring_capacity_bytes` of `main` (`ring_ms = 500`). -/
def ring_capacity_bytes (rate ch : Int) : Nat := bytesForMs rate ch 500

/-- The constant `prefill_target` of the playback thread. -/
def prefill_target (ring : Ring) (rate ch : Int) : Nat :=
  min (ring.capacity / 2) (bytesForMs rate ch 150)

/-- The constant `refill_target` of the playback thread. -/
def refill_target (ring : Ring) (rate ch : Int) : Nat :=
  min (ring.capacity / 2) (bytesForMs rate ch 150)

/-! ## The capture worker of `main` -/

/-- What the capture thread does after the tests of one loop iteration. -/
inductive CaptureNext
  /-- The loop is left: `g_running` was seen cleared, or `break` after a failed
  `Recover()`. -/
  | exitLoop
  /-- The statement `continue` after a successful `Recover()`. -/
  | again
  /-- The call `ring.writeBlocking(buf.data(), bytes)`. -/
  | write (bytes : Nat)
deriving DecidableEq, Repr

/-- One iteration of the capture loop up to the call of `writeBlocking`:
`g_running` is the flag at the loop condition, `ok` and `frames_read` are what
`capture.ReadFrame(buf.data(), buf.size(), &frames_read)` returned and stored,
`recovered` is what `capture.Recover()` returns if it is called. -/
def captureIter (g_running ok : Bool) (frames_read : Int) (recovered : Bool)
    (frame_bytes : Int) : CaptureNext :=
  -- while (g_running)
  if !g_running then CaptureNext.exitLoop
  -- if (!ok || frames_read <= 0)
  else if !ok || decide (frames_read ≤ 0) then
    -- if (!capture.Recover()) break; continue;
    if !recovered then CaptureNext.exitLoop else CaptureNext.again
  -- const size_t bytes = static_cast<size_t>(frames_read) * frame_bytes;
  else CaptureNext.write (toSizeT frames_read * toSizeT frame_bytes % 2 ^ 64)

/-- What the capture thread does to the shared state in one loop iteration
(and, when the loop is left, after it); `buf` is the capture buffer as
`ReadFrame` left it. -/
def captureEvents (buf : List Nat) : CaptureNext → List Ev
  | CaptureNext.exitLoop => captureAfterLoop
  | CaptureNext.again => []
  | CaptureNext.write bytes => [Ev.wcall buf bytes]

/-- The event is the start of a new `writeBlocking` call. -/
def Ev.isWcall : Ev → Bool
  | Ev.wcall _ _ => true
  | _ => false

/-! ## The device wrappers `AlsaCapture` and `AlsaPlayback` -/

/-- The ALSA sample formats that `GetBytesPerSample` names; `other` is any
other value of the enumeration. -/
inductive snd_pcm_format_t
  | SND_PCM_FORMAT_S8
  | SND_PCM_FORMAT_U8
  | SND_PCM_FORMAT_S16_LE
  | SND_PCM_FORMAT_S16_BE
  | SND_PCM_FORMAT_U16_LE
  | SND_PCM_FORMAT_U16_BE
  | SND_PCM_FORMAT_S24_LE
  | SND_PCM_FORMAT_S24_BE
  | SND_PCM_FORMAT_U24_LE
  | SND_PCM_FORMAT_U24_BE
  | SND_PCM_FORMAT_S32_LE
  | SND_PCM_FORMAT_S32_BE
  | SND_PCM_FORMAT_U32_LE
  | SND_PCM_FORMAT_U32_BE
  | SND_PCM_FORMAT_FLOAT_LE
  | SND_PCM_FORMAT_FLOAT_BE
  | SND_PCM_FORMAT_FLOAT64_LE
  | SND_PCM_FORMAT_FLOAT64_BE
  | other (code : Int)
deriving DecidableEq, Repr

/-- The `switch` of `GetBytesPerSample` (the same in both classes). -/
def snd_pcm_format_t.bytes : snd_pcm_format_t → Int
  | SND_PCM_FORMAT_S8 => 1
  | SND_PCM_FORMAT_U8 => 1
  | SND_PCM_FORMAT_S16_LE => 2
  | SND_PCM_FORMAT_S16_BE => 2
  | SND_PCM_FORMAT_U16_LE => 2
  | SND_PCM_FORMAT_U16_BE => 2
  | SND_PCM_FORMAT_S24_LE => 3
  | SND_PCM_FORMAT_S24_BE => 3
  | SND_PCM_FORMAT_U24_LE => 3
  | SND_PCM_FORMAT_U24_BE => 3
  | SND_PCM_FORMAT_S32_LE => 4
  | SND_PCM_FORMAT_S32_BE => 4
  | SND_PCM_FORMAT_U32_LE => 4
  | SND_PCM_FORMAT_U32_BE => 4
  | SND_PCM_FORMAT_FLOAT_LE => 4
  | SND_PCM_FORMAT_FLOAT_BE => 4
  | SND_PCM_FORMAT_FLOAT64_LE => 8
  | SND_PCM_FORMAT_FLOAT64_BE => 8
  | other _ => 2

/-- The data members of `class AlsaCapture`; the device handle `handle_` is
`none` for `nullptr`. -/
structure AlsaCapture where
  device_ : String
  sample_rate_ : Int
  channels_ : Int
  handle_ : Option Nat
  buffer_size_ : Nat
  period_size_ : Nat
  format_ : snd_pcm_format_t
deriving DecidableEq, Repr

/-- The data members of `class AlsaPlayback`. -/
structure AlsaPlayback where
  device_ : String
  sample_rate_ : Int
  channels_ : Int
  handle_ : Option Nat
  format_ : snd_pcm_format_t
deriving DecidableEq, Repr

/-- The method `AlsaCapture::GetBytesPerSample()`. -/
def AlsaCapture.GetBytesPerSample (c : AlsaCapture) : Int := c.format_.bytes

/-- The method `AlsaCapture::SetFormat(format)`: the returned value and the
object afterwards. -/
def AlsaCapture.SetFormat (c : AlsaCapture) (format : snd_pcm_format_t) : Bool × AlsaCapture :=
  -- if (handle_) return false;
  if c.handle_.isSome then (false, c)
  -- format_ = format; return true;
  else (true, { c with format_ := format })

/-- The method `AlsaPlayback::GetBytesPerSample()`. -/
def AlsaPlayback.GetBytesPerSample (p : AlsaPlayback) : Int := p.format_.bytes

/-- The method `AlsaPlayback::GetFormat()`. -/
def AlsaPlayback.GetFormat (p : AlsaPlayback) : snd_pcm_format_t := p.format_

/-- The method `AlsaPlayback::SetFormat(format)`: the returned value and the
object afterwards. -/
def AlsaPlayback.SetFormat (p : AlsaPlayback) (format : snd_pcm_format_t) :
    Bool × AlsaPlayback :=
  -- if (handle_) return false;
  if p.handle_.isSome then (false, p)
  -- format_ = format; return true;
  else (true, { p with format_ := format })

/-! ## The playback worker of `main` -/

/-- The errno constant `EPIPE` (its value on Linux). -/
def EPIPE : Int := 32

/-- The method `AlsaPlayback::WriteFrame(buffer, buffer_size, &frames_written)`:
`result` is what `snd_pcm_writei` returns when it is called, `frames_written` is
the caller's variable before the call.  Returns the returned value and the
caller's variable after the call. -/
def AlsaPlayback.WriteFrame (p : AlsaPlayback) (result : Int) (frames_written : Int) :
    Bool × Int :=
  -- if (!handle_) return false;
  if p.handle_.isNone then (false, frames_written)
  -- if (result < 0) return false;
  else if result < 0 then (false, frames_written)
  -- *frames_written = result; return true;
  else (true, result)

/-- The method `AlsaPlayback::Recover(err)`: `snd_pcm_recover` is the answer of
the device to `snd_pcm_recover(handle_, err, 0)`. -/
def AlsaPlayback.Recover (p : AlsaPlayback) (snd_pcm_recover : Int → Int) (err : Int) : Bool :=
  -- if (!handle_) return false;
  if p.handle_.isNone then false
  -- if (result < 0) return false;
  else if snd_pcm_recover err < 0 then false
  else true

/-- What the environment supplies to one iteration of the playback loop:
`g_running` at the loop condition, the bytes `block` that `readBlocking`
delivered (`got = block.length`), the value `writei` that `snd_pcm_writei`
returns, and the answer `recover` of the device to `snd_pcm_recover`. -/
structure PlaybackStep where
  g_running : Bool
  block : List Nat
  writei : Int
  recover : Int → Int

/-- The calls the playback thread makes, in order. -/
inductive PlaybackAct
  /-- The call `ring.readBlocking(buf.data(), buf.size())` delivered `block`. -/
  | readBlocking (block : List Nat)
  /-- The call `playback.WriteFrame(buf.data(), got, &frames_written)` with the
  `got` bytes `block`. -/
  | WriteFrame (block : List Nat)
  /-- The call `playback.Recover(err)`. -/
  | Recover (err : Int)
  /-- The call `wait_prefill(ring, refill_target, 2000)`. -/
  | wait_prefill
deriving DecidableEq, Repr

/-- The loop of the playback thread.  `process` is the effect of the in-place
call `user_process(buf, got / frame_bytes, ch)` on the `got` bytes read;
`frames_written` is the thread's variable of that name. -/
def playbackLoop (p : AlsaPlayback) (process : List Nat → List Nat) :
    List PlaybackStep → Int → List PlaybackAct
  | [], _ => []
  | i :: rest, frames_written =>
    -- while (g_running)
    if !i.g_running then []
    -- if (got == 0) break;
    else if i.block.length = 0 then [PlaybackAct.readBlocking i.block]
    else
      PlaybackAct.readBlocking i.block :: PlaybackAct.WriteFrame (process i.block) ::
        -- if (!ok || frames_written <= 0)
        (if !(p.WriteFrame i.writei frames_written).1 ||
            decide ((p.WriteFrame i.writei frames_written).2 ≤ 0) then
          -- if (!playback.Recover(-EPIPE)) break;
          PlaybackAct.Recover (-EPIPE) ::
            (if !p.Recover i.recover (-EPIPE) then []
            -- wait_prefill(ring, refill_target, 2000); continue;
            else PlaybackAct.wait_prefill ::
              playbackLoop p process rest (p.WriteFrame i.writei frames_written).2)
        else playbackLoop p process rest (p.WriteFrame i.writei frames_written).2)

/-- The blocks submitted to the playback device, in order. -/
def submitted : List PlaybackAct → List (List Nat)
  | [] => []
  | PlaybackAct.WriteFrame b :: rest => b :: submitted rest
  | _ :: rest => submitted rest

/-- The non-empty blocks taken from the ring, in order. -/
def taken : List PlaybackAct → List (List Nat)
  | [] => []
  | PlaybackAct.readBlocking b :: rest => if b.length = 0 then taken rest else b :: taken rest
  | _ :: rest => taken rest

/-- An open playback device, 44100 Hz stereo. -/
def openPlayback : AlsaPlayback :=
  { device_ := "hw:0", sample_rate_ := 44100, channels_ := 2, handle_ := some 1,
    format_ := snd_pcm_format_t.SND_PCM_FORMAT_S16_LE }

/-- One iteration in which the device write fails with `-ESTRPIPE` (-86) and
the recovery succeeds. -/
def suspendedWrite : List PlaybackStep :=
  [{ g_running := true, block := [1, 2, 3, 4], writei := -86, recover := fun _ => 0 }]

/-- Two iterations: the write of the block `[1, 1, 1, 1]` fails with `-EPIPE`
and the recovery succeeds; the write of the block `[2, 2, 2, 2]` succeeds. -/
def failThenSucceed : List PlaybackStep :=
  [{ g_running := true, block := [1, 1, 1, 1], writei := -32, recover := fun _ => 0 },
   { g_running := true, block := [2, 2, 2, 2], writei := 1, recover := fun _ => 0 }]

/-- The argument `got / frame_bytes` of the call of `user_process` in the
playback thread: `got` is a `size_t`, the `int` `frame_bytes` is converted to
`size_t` for the division. -/
def playbackFrames (got : Nat) (ch : Int) : Nat := got / toSizeT (frame_bytes ch)

/-- The call `user_process(reinterpret_cast<int16_t*>(buf.data()), got / frame_bytes, ch)`
of the playback thread; `samples` is the buffer seen as 16-bit samples (sample
`i` is made of the bytes `2 * i` and `2 * i + 1`). -/
def playbackProcess (gain : F32) (samples : List Int) (got : Nat) (ch : Int) :
    Option (List Int) :=
  user_process gain samples (playbackFrames got ch) ch

/-! ## The copies of the ring are exact -/

theorem memcpy_some (dst : List Nat) (dpos : Nat) (src : List Nat) (spos k : Nat)
    (hd : dpos + k ≤ dst.length) (hs : spos + k ≤ src.length) :
    memcpy dst dpos src spos k =
      some (dst.take dpos ++ (src.drop spos).take k ++ dst.drop (dpos + k)) := by
  simp [memcpy, hd, hs]

theorem memcpy_length {dst src d : List Nat} {dpos spos k : Nat}
    (h : memcpy dst dpos src spos k = some d) : d.length = dst.length := by
  unfold memcpy at h
  split at h
  · rename_i hb
    cases h
    simp
    omega
  · cases h

theorem memcpy_getElem? {dst src d : List Nat} {dpos spos k : Nat}
    (h : memcpy dst dpos src spos k = some d) (i : Nat) :
    d[i]? = if i < dpos then dst[i]? else if i < dpos + k then src[spos + (i - dpos)]? else dst[i]? := by
  unfold memcpy at h
  split at h
  · rename_i hb
    cases h
    simp only [List.getElem?_append, List.getElem?_take, List.getElem?_drop, List.length_append,
      List.length_take, List.length_drop]
    split_ifs <;> first | rfl | omega | (congr 1; omega)
  · cases h

theorem contents_getElem? {r : Ring} (h : r.Inv) (i : Nat) :
    r.contents[i]? = if i < r.size_ then
      (if r.head_ + i < r.cap_ then r.buf_[r.head_ + i]? else r.buf_[r.head_ + i - r.cap_]?)
      else none := by
  obtain ⟨hl, hc, hs, hh⟩ := h
  unfold Ring.contents
  rw [List.getElem?_map]
  by_cases hi : i < r.size_
  · rw [List.getElem?_range hi]
    simp only [hi, if_true, Option.map_some']
    have hb : ∀ j, j < r.cap_ → some (r.buf_.getD j 0) = r.buf_[j]? := by
      intro j hj
      rw [List.getD_eq_getElem?_getD, List.getElem?_eq_getElem (by omega)]
      simp
    by_cases hw : r.head_ + i < r.cap_
    · rw [Nat.mod_eq_of_lt hw, if_pos hw]; exact hb _ hw
    · rw [if_neg hw, Nat.mod_eq_sub_mod (by omega), Nat.mod_eq_of_lt (by omega)]
      exact hb _ (by omega)
  · rw [List.getElem?_eq_none (by simp; omega)]
    simp [hi]

theorem contents_length (r : Ring) : r.contents.length = r.size_ := by
  simp [Ring.contents]

theorem mod_cases (a c : Nat) (h : a < 2 * c) :
    (a < c ∧ a % c = a) ∨ (c ≤ a ∧ a % c = a - c) := by
  by_cases hlt : a < c
  · exact Or.inl ⟨hlt, Nat.mod_eq_of_lt hlt⟩
  · refine Or.inr ⟨by omega, ?_⟩
    rw [Nat.mod_eq_sub_mod (by omega), Nat.mod_eq_of_lt (by omega)]

theorem writeBlockingCopy_spec {r : Ring} (h : r.Inv) (data : List Nat) {n written : Nat}
    (hw : written ≤ n) (hn : n ≤ data.length) :
    ∃ r', r.writeBlockingCopy data n written = some (r', written + min (n - written) (r.cap_ - r.size_)) ∧
      r'.Inv ∧ r'.cap_ = r.cap_ ∧ r'.head_ = r.head_ ∧
      r'.size_ = r.size_ + min (n - written) (r.cap_ - r.size_) ∧
      r'.contents =
        r.contents ++ (data.drop written).take (min (n - written) (r.cap_ - r.size_)) := by
  have hinv := h
  obtain ⟨hl, hc, hs, hh⟩ := h
  obtain ⟨wpos, hwdef, hwp⟩ : ∃ wpos, (r.head_ + r.size_) % r.cap_ = wpos ∧
      ((r.head_ + r.size_ < r.cap_ ∧ wpos = r.head_ + r.size_) ∨
        (r.cap_ ≤ r.head_ + r.size_ ∧ wpos = r.head_ + r.size_ - r.cap_)) := by
    rcases mod_cases (r.head_ + r.size_) r.cap_ (by omega) with ⟨a, b⟩ | ⟨a, b⟩
    · exact ⟨_, rfl, Or.inl ⟨a, b⟩⟩
    · exact ⟨_, rfl, Or.inr ⟨a, b⟩⟩
  generalize hcan : min (n - written) (r.cap_ - r.size_) = can
  generalize hfirst : min can (r.cap_ - wpos) = first
  have hb1 := memcpy_some r.buf_ wpos data written first (by omega) (by omega)
  generalize hb1v : r.buf_.take wpos ++ (data.drop written).take first ++
    r.buf_.drop (wpos + first) = b1 at hb1
  have hb1l := memcpy_length hb1
  have hb1g := memcpy_getElem? hb1
  obtain ⟨b2, hb2, hb2l, hb2g⟩ : ∃ b2,
      (if can > first then memcpy b1 0 data (written + first) (can - first) else some b1)
        = some b2 ∧ b2.length = r.cap_ ∧
      ∀ i, b2[i]? = if can > first ∧ i < can - first then data[written + first + i]?
        else b1[i]? := by
    by_cases hgt : can > first
    · have hm := memcpy_some b1 0 data (written + first) (can - first) (by omega) (by omega)
      refine ⟨_, by rw [if_pos hgt]; exact hm, by rw [memcpy_length hm]; omega, ?_⟩
      intro i
      rw [memcpy_getElem? hm i]
      simp [hgt]
    · exact ⟨b1, by rw [if_neg hgt], by omega, by intro i; simp [hgt]⟩
  refine ⟨{ r with buf_ := b2, size_ := r.size_ + can }, ?_, ?_, rfl, rfl, rfl, ?_⟩
  · unfold Ring.writeBlockingCopy
    simp only [hwdef, hcan, hfirst]
    rw [if_pos (by omega), hb1]
    simp only [Option.bind_eq_bind, Option.some_bind]
    split_ifs at hb2 ⊢
    · rw [hb2]; rfl
    · cases hb2; rfl
  · exact ⟨hb2l, hc, by simp only; omega, hh⟩
  · have hinv' : Ring.Inv { r with buf_ := b2, size_ := r.size_ + can } :=
      ⟨hb2l, hc, by simp only; omega, hh⟩
    apply List.ext_getElem?
    intro i
    rw [contents_getElem? hinv', List.getElem?_append, contents_getElem? hinv]
    simp only [hb2g, hb1g, List.getElem?_take, List.getElem?_drop, contents_length]
    rcases hwp with ⟨a, b⟩ | ⟨a, b⟩ <;> subst b <;>
      split_ifs <;> first | rfl | omega | (congr 1; omega)

theorem readBlockingCopy_spec {r : Ring} (h : r.Inv) (out : List Nat) {n got : Nat}
    (hg : got ≤ n) (hn : n ≤ out.length) :
    ∃ r' out', r.readBlockingCopy out n got = some (r', out', got + min (n - got) r.size_) ∧
      r'.Inv ∧ r'.cap_ = r.cap_ ∧ r'.buf_ = r.buf_ ∧
      r'.head_ = (r.head_ + min (n - got) r.size_) % r.cap_ ∧
      r'.size_ = r.size_ - min (n - got) r.size_ ∧
      out' = out.take got ++ r.contents.take (min (n - got) r.size_) ++
        out.drop (got + min (n - got) r.size_) ∧
      r'.contents = r.contents.drop (min (n - got) r.size_) := by
  have hinv := h
  obtain ⟨hl, hc, hs, hh⟩ := h
  generalize hcan : min (n - got) r.size_ = can
  generalize hfirst : min can (r.cap_ - r.head_) = first
  obtain ⟨hd, hhdef, hhp⟩ : ∃ hd, (r.head_ + can) % r.cap_ = hd ∧
      ((r.head_ + can < r.cap_ ∧ hd = r.head_ + can) ∨
        (r.cap_ ≤ r.head_ + can ∧ hd = r.head_ + can - r.cap_)) := by
    rcases mod_cases (r.head_ + can) r.cap_ (by omega) with ⟨a, b⟩ | ⟨a, b⟩
    · exact ⟨_, rfl, Or.inl ⟨a, b⟩⟩
    · exact ⟨_, rfl, Or.inr ⟨a, b⟩⟩
  have ho1 := memcpy_some out got r.buf_ r.head_ first (by omega) (by omega)
  generalize ho1v : out.take got ++ (r.buf_.drop r.head_).take first ++
    out.drop (got + first) = o1 at ho1
  have ho1l := memcpy_length ho1
  have ho1g := memcpy_getElem? ho1
  obtain ⟨o2, ho2, ho2l, ho2g⟩ : ∃ o2,
      (if can > first then memcpy o1 (got + first) r.buf_ 0 (can - first) else some o1)
        = some o2 ∧ o2.length = out.length ∧
      ∀ i, o2[i]? = if can > first ∧ got + first ≤ i ∧ i < got + can
        then r.buf_[i - (got + first)]? else o1[i]? := by
    by_cases hgt : can > first
    · have hm := memcpy_some o1 (got + first) r.buf_ 0 (can - first) (by omega) (by omega)
      refine ⟨_, by rw [if_pos hgt]; exact hm, by rw [memcpy_length hm]; omega, ?_⟩
      intro i
      rw [memcpy_getElem? hm i]
      simp only [hgt, true_and, Nat.zero_add]
      split_ifs <;> first | rfl | omega
    · exact ⟨o1, by rw [if_neg hgt], by omega, by intro i; simp [hgt]⟩
  have hinv' : Ring.Inv { r with head_ := hd, size_ := r.size_ - can } :=
    ⟨hl, hc, by simp only; omega, by simp only; omega⟩
  refine ⟨{ r with head_ := hd, size_ := r.size_ - can }, o2, ?_, hinv', rfl, rfl, hhdef.symm, rfl,
    ?_, ?_⟩
  · unfold Ring.readBlockingCopy
    simp only [hhdef, hcan, hfirst]
    rw [if_pos (by omega), ho1]
    simp only [Option.bind_eq_bind, Option.some_bind]
    split_ifs at ho2 ⊢
    · rw [ho2]; rfl
    · cases ho2; rfl
  · apply List.ext_getElem?
    intro i
    simp only [List.getElem?_append, List.getElem?_take, List.getElem?_drop, List.length_append,
      List.length_take, List.length_drop, contents_getElem? hinv, ho2g, ho1g, contents_length]
    split_ifs <;> first | rfl | omega | (congr 1; omega)
  · apply List.ext_getElem?
    intro i
    rw [contents_getElem? hinv', List.getElem?_drop, contents_getElem? hinv]
    simp only
    rcases hhp with ⟨a, b⟩ | ⟨a, b⟩ <;> subst b <;>
      split_ifs <;> first | rfl | omega | (congr 1; omega)

/-! ## The invariant holds along every schedule -/

theorem new_inv {cap : Nat} (h : 0 < cap) : (Ring.new cap).Inv := by
  simp [Ring.new, Ring.Inv, h]

theorem init_inv {cap : Nat} (h : 0 < cap) : (Sys.init cap).Inv where
  nofault := rfl
  ring := new_inv h
  wle := Nat.le_refl _
  wbuf := Nat.le_refl _
  rle := Nat.le_refl _
  rbuf := Nat.le_refl _
  fifo := by simp [Sys.init, Ring.new, Ring.contents]
  wret := fun _ => Or.inl rfl
  rret := fun _ => Or.inl rfl
  mutex := by simp [Sys.init]
  wsuf := by simp [Sys.init]
  rsuf := by simp [Sys.init]

theorem wstep_inv {s : Sys} (h : s.Inv) : s.writeBlockingStep.Inv := by
  unfold Sys.writeBlockingStep
  split
  · exact h
  · rename_i hpc
    split
    · rename_i hg
      exact { h with wret := by simp, mutex := by simp }
    · rename_i hg
      refine { h with wret := ?_, mutex := by simp }
      intro _
      simp only [Bool.and_eq_true, decide_eq_true_eq, not_and, not_lt] at hg
      cases hr : s.g_running
      · exact Or.inr rfl
      · exact Or.inl (Nat.le_antisymm h.wle (hg hr))
  · rename_i hpc
    split
    · exact h
    · rename_i hrl
      split
      · exact { h with wret := by simp, mutex := by simpa using hrl }
      · exact h
  · rename_i hpc
    split
    · rename_i hg
      refine { h with wret := ?_, mutex := by simp }
      intro _
      right
      simpa using hg
    · obtain ⟨r', hw, hinv', -, -, hsz, hct⟩ :=
        writeBlockingCopy_spec h.ring s.w.data h.wle h.wbuf
      rw [hw]
      simp only
      have hcan : s.w.written + min (s.w.n - s.w.written) (s.ring.cap_ - s.ring.size_)
          - s.w.written = min (s.w.n - s.w.written) (s.ring.cap_ - s.ring.size_) := by omega
      rw [hcan]
      have hwle := h.wle
      refine { h with ring := hinv', wle := by simp only; omega, fifo := ?_, wret := by simp,
                      mutex := by simp, wsuf := ?_ }
      · simp only [hct, h.fifo, List.append_assoc]
      · simp only
        rw [List.take_add]
        obtain ⟨t, ht⟩ := h.wsuf
        exact ⟨t, by rw [← ht, List.append_assoc]⟩

theorem rstep_inv {s : Sys} (h : s.Inv) : s.readBlockingStep.Inv := by
  unfold Sys.readBlockingStep
  split
  · exact h
  · rename_i hpc
    split
    · exact { h with rret := by simp, mutex := by simp }
    · rename_i hg
      refine { h with rret := ?_, mutex := by simp }
      intro _
      simp only [Bool.and_eq_true, decide_eq_true_eq, not_and, not_lt] at hg
      cases hr : s.g_running
      · exact Or.inr rfl
      · exact Or.inl (Nat.le_antisymm h.rle (hg hr))
  · rename_i hpc
    split
    · exact h
    · rename_i hwl
      split
      · exact { h with rret := by simp, mutex := by simpa using hwl }
      · exact h
  · rename_i hpc
    split
    · rename_i hg
      refine { h with rret := ?_, mutex := by simp }
      intro _
      right
      simp only [Bool.and_eq_true, Bool.not_eq_true', decide_eq_true_eq] at hg
      exact hg.1
    · obtain ⟨r', out', hr, hinv', -, -, -, hsz, hout, hct⟩ :=
        readBlockingCopy_spec h.ring s.rd.out h.rle h.rbuf
      rw [hr]
      simp only
      have hrle := h.rle
      have hrbuf := h.rbuf
      have hcan : s.rd.got + min (s.rd.n - s.rd.got) s.ring.size_ - s.rd.got
          = min (s.rd.n - s.rd.got) s.ring.size_ := by omega
      rw [hcan]
      generalize hc : min (s.rd.n - s.rd.got) s.ring.size_ = can at *
      have hlen0 : (s.rd.out.take s.rd.got).length = s.rd.got := by
        rw [List.length_take]; omega
      have hlen1 : (s.ring.contents.take can).length = can := by
        rw [List.length_take, contents_length]; omega
      have hchunk : (out'.drop s.rd.got).take can = s.ring.contents.take can := by
        rw [hout, List.append_assoc, List.drop_left' hlen0, List.take_left' hlen1]
      have hpre : out'.take (s.rd.got + can) = s.rd.out.take s.rd.got ++ s.ring.contents.take can := by
        rw [hout]
        exact List.take_left' (by rw [List.length_append, hlen0, hlen1])
      refine { h with ring := hinv', rle := by simp only; omega, rbuf := ?_, fifo := ?_,
                      rret := by simp, mutex := by simp, rsuf := ?_ }
      · simp only
        rw [hout]
        simp only [List.length_append, List.length_drop, hlen0, hlen1]
        omega
      · simp only [hchunk, hct, h.fifo, List.append_assoc, List.take_append_drop]
      · simp only [hchunk, hpre]
        obtain ⟨t, ht⟩ := h.rsuf
        exact ⟨t, by rw [← ht, List.append_assoc]⟩

theorem step_inv {s : Sys} (h : s.Inv) {e : Ev} (he : e.wf) : (s.step e).Inv := by
  unfold Sys.step
  rw [if_neg (by simp [h.nofault])]
  cases e with
  | stop => exact { h with wret := fun _ => Or.inr rfl, rret := fun _ => Or.inr rfl }
  | close => exact h
  | wcall data n =>
    dsimp only
    split
    · exact { h with wle := Nat.zero_le _, wbuf := he, wret := by simp,
                     mutex := by simp, wsuf := by simp }
    · exact h
  | rcall out n =>
    dsimp only
    split
    · exact { h with rle := Nat.zero_le _, rbuf := he, rret := by simp,
                     mutex := by simp, rsuf := by simp }
    · exact h
  | wstep => exact wstep_inv h
  | rstep => exact rstep_inv h

theorem run_inv {evs : List Ev} : ∀ {s : Sys}, s.Inv → (∀ e ∈ evs, e.wf) → (s.run evs).Inv := by
  induction evs with
  | nil => intro s h _; exact h
  | cons e es ih =>
    intro s h hwf
    exact ih (step_inv h (hwf e (List.mem_cons_self _ _)))
      (fun e' he' => hwf e' (List.mem_cons_of_mem _ he'))

/-! ## Runs do not depend on the values of the bytes -/

theorem memcpy_map (f : Nat → Nat) (dst src : List Nat) (dpos spos k : Nat) :
    memcpy (dst.map f) dpos (src.map f) spos k =
      (memcpy dst dpos src spos k).map (List.map f) := by
  unfold memcpy
  simp only [List.length_map]
  split
  · simp [List.map_take, List.map_drop]
  · rfl

theorem writeBlockingCopy_map (f : Nat → Nat) (r : Ring) (data : List Nat) (n written : Nat) :
    (r.mapBytes f).writeBlockingCopy (data.map f) n written =
      (r.writeBlockingCopy data n written).map (fun p => (p.1.mapBytes f, p.2)) := by
  unfold Ring.writeBlockingCopy Ring.mapBytes
  simp only [List.length_map, memcpy_map]
  split
  · cases h1 : memcpy r.buf_ ((r.head_ + r.size_) % r.cap_) data written
        (min (min (n - written) (r.cap_ - r.size_)) (r.cap_ - (r.head_ + r.size_) % r.cap_)) with
    | none => rfl
    | some b1 =>
      simp only [Option.map_some', Option.bind_eq_bind, Option.some_bind]
      split
      · rw [memcpy_map]
        cases memcpy b1 0 data _ _ <;> rfl
      · rfl
  · rfl

theorem readBlockingCopy_map (f : Nat → Nat) (r : Ring) (out : List Nat) (n got : Nat) :
    (r.mapBytes f).readBlockingCopy (out.map f) n got =
      (r.readBlockingCopy out n got).map (fun p => (p.1.mapBytes f, p.2.1.map f, p.2.2)) := by
  unfold Ring.readBlockingCopy Ring.mapBytes
  simp only [List.length_map, memcpy_map]
  split
  · cases h1 : memcpy out got r.buf_ r.head_ (min (min (n - got) r.size_) (r.cap_ - r.head_)) with
    | none => rfl
    | some o1 =>
      simp only [Option.map_some', Option.bind_eq_bind, Option.some_bind]
      split
      · rw [memcpy_map]
        cases memcpy o1 _ r.buf_ _ _ <;> rfl
      · rfl
  · rfl

theorem spaceCond_map (f : Nat → Nat) (g : Bool) (r : Ring) :
    (r.mapBytes f).spaceCond g = r.spaceCond g := rfl

theorem dataCond_map (f : Nat → Nat) (g : Bool) (r : Ring) :
    (r.mapBytes f).dataCond g = r.dataCond g := rfl

theorem wstep_map (f : Nat → Nat) (s : Sys) : (s.mapBytes f).writeBlockingStep = s.writeBlockingStep.mapBytes f := by
  obtain ⟨g, r, ⟨data, n, written, wpc⟩, ⟨out, rn, got, rpc⟩, acc, del, fault⟩ := s
  cases wpc
  · simp only [Sys.writeBlockingStep, Sys.mapBytes]
    split <;> rfl
  · simp only [Sys.writeBlockingStep, Sys.mapBytes, spaceCond_map]
    split
    · rfl
    · split <;> rfl
  · simp only [Sys.writeBlockingStep, Sys.mapBytes]
    split
    · rfl
    · rw [writeBlockingCopy_map]
      cases r.writeBlockingCopy data n written with
      | none => rfl
      | some p => simp [List.map_take, List.map_drop]
  · rfl

theorem rstep_map (f : Nat → Nat) (s : Sys) : (s.mapBytes f).readBlockingStep = s.readBlockingStep.mapBytes f := by
  obtain ⟨g, r, ⟨data, n, written, wpc⟩, ⟨out, rn, got, rpc⟩, acc, del, fault⟩ := s
  cases rpc
  · simp only [Sys.readBlockingStep, Sys.mapBytes]
    split <;> rfl
  · simp only [Sys.readBlockingStep, Sys.mapBytes, dataCond_map]
    split
    · rfl
    · split <;> rfl
  · simp only [Sys.readBlockingStep, Sys.mapBytes, show (r.mapBytes f).size_ = r.size_ from rfl]
    split
    · rfl
    · rw [readBlockingCopy_map]
      cases r.readBlockingCopy out rn got with
      | none => rfl
      | some p => simp [List.map_take, List.map_drop]
  · rfl

theorem step_map (f : Nat → Nat) (s : Sys) (e : Ev) :
    (s.mapBytes f).step (e.mapBytes f) = (s.step e).mapBytes f := by
  unfold Sys.step
  cases hf : s.fault
  · have : (s.mapBytes f).fault = false := hf
    rw [this]
    simp only [Bool.false_eq_true, if_false]
    cases e with
    | stop => rfl
    | close => rfl
    | wcall data n =>
      simp only [Ev.mapBytes]
      by_cases hp : s.w.pc = PC.ret
      · have : (s.mapBytes f).w.pc = PC.ret := hp
        rw [if_pos hp, if_pos this]; rfl
      · have : ¬ (s.mapBytes f).w.pc = PC.ret := hp
        rw [if_neg hp, if_neg this]
    | rcall out n =>
      simp only [Ev.mapBytes]
      by_cases hp : s.rd.pc = PC.ret
      · have : (s.mapBytes f).rd.pc = PC.ret := hp
        rw [if_pos hp, if_pos this]; rfl
      · have : ¬ (s.mapBytes f).rd.pc = PC.ret := hp
        rw [if_neg hp, if_neg this]
    | wstep => exact wstep_map f s
    | rstep => exact rstep_map f s
  · have : (s.mapBytes f).fault = true := hf
    rw [this]
    simp

theorem run_map (f : Nat → Nat) (evs : List Ev) : ∀ s : Sys,
    (s.mapBytes f).run (evs.map (Ev.mapBytes f)) = (s.run evs).mapBytes f := by
  induction evs with
  | nil => intro s; rfl
  | cons e es ih =>
    intro s
    simp only [Sys.run, List.map_cons, List.foldl_cons] at ih ⊢
    rw [step_map, ih]

/-! ## Capacity invariant and byte order (C1, C2) -/

theorem wstep_cap {s : Sys} (h : s.Inv) : s.writeBlockingStep.ring.cap_ = s.ring.cap_ := by
  unfold Sys.writeBlockingStep
  split
  · rfl
  · split <;> rfl
  · split
    · rfl
    · split <;> rfl
  · split
    · rfl
    · obtain ⟨r', hw, -, hcap, -⟩ := writeBlockingCopy_spec h.ring s.w.data h.wle h.wbuf
      rw [hw]
      exact hcap

theorem rstep_cap {s : Sys} (h : s.Inv) : s.readBlockingStep.ring.cap_ = s.ring.cap_ := by
  unfold Sys.readBlockingStep
  split
  · rfl
  · split <;> rfl
  · split
    · rfl
    · split <;> rfl
  · split
    · rfl
    · obtain ⟨r', out', hr, -, hcap, -⟩ := readBlockingCopy_spec h.ring s.rd.out h.rle h.rbuf
      rw [hr]
      exact hcap

theorem step_cap {s : Sys} (h : s.Inv) (e : Ev) : (s.step e).ring.cap_ = s.ring.cap_ := by
  unfold Sys.step
  rw [if_neg (by simp [h.nofault])]
  cases e with
  | stop => rfl
  | close => rfl
  | wcall data n => dsimp only; split <;> rfl
  | rcall out n => dsimp only; split <;> rfl
  | wstep => exact wstep_cap h
  | rstep => exact rstep_cap h

theorem run_cap {evs : List Ev} : ∀ {s : Sys}, s.Inv → (∀ e ∈ evs, e.wf) →
    (s.run evs).ring.cap_ = s.ring.cap_ := by
  induction evs with
  | nil => intro s _ _; rfl
  | cons e es ih =>
    intro s h hwf
    have h1 := step_inv h (hwf e (List.mem_cons_self _ _))
    have := ih h1 (fun e' he' => hwf e' (List.mem_cons_of_mem _ he'))
    rw [← step_cap h e, ← this]
    rfl

/-- C1: capacity invariant.  From a freshly constructed ring of capacity
`cap > 0`, after every schedule of writer steps, reader steps, `close()` calls,
new calls with arbitrary request sizes and the clearing of `g_running`, no
`memcpy` has left its buffers, the storage still has `cap` bytes,
`size_ ≤ cap_`, `head_ < cap_`, and the write position
`(head_ + size_) % cap_` is an index of the storage. -/
theorem ring_capacity_invariant (cap : Nat) (hcap : 0 < cap) (evs : List Ev)
    (hwf : ∀ e ∈ evs, e.wf) :
    ((Sys.init cap).run evs).fault = false ∧
    ((Sys.init cap).run evs).ring.cap_ = cap ∧
    ((Sys.init cap).run evs).ring.buf_.length = cap ∧
    ((Sys.init cap).run evs).ring.size_ ≤ ((Sys.init cap).run evs).ring.cap_ ∧
    ((Sys.init cap).run evs).ring.head_ < ((Sys.init cap).run evs).ring.cap_ ∧
    (((Sys.init cap).run evs).ring.head_ + ((Sys.init cap).run evs).ring.size_) %
      ((Sys.init cap).run evs).ring.cap_ < ((Sys.init cap).run evs).ring.buf_.length := by
  have h := run_inv (init_inv hcap) hwf
  have hc : ((Sys.init cap).run evs).ring.cap_ = cap := run_cap (init_inv hcap) hwf
  obtain ⟨hl, hpos, hs, hh⟩ := h.ring
  refine ⟨h.nofault, hc, hl.trans hc, hs, hh, ?_⟩
  rw [hl]
  exact Nat.mod_lt _ hpos

/-- Witness of C1: a ring of capacity 4, a write of 6 bytes that fills the ring,
a read of 3 bytes, and the rest of the write, which wraps around. -/
theorem ring_capacity_invariant_witness :
    ((Sys.init 4).run [Ev.wcall [1, 2, 3, 4, 5, 6] 6, Ev.wstep, Ev.wstep, Ev.wstep,
        Ev.rcall [0, 0, 0] 3, Ev.rstep, Ev.rstep, Ev.rstep, Ev.wstep, Ev.wstep, Ev.wstep,
        Ev.close, Ev.stop]).ring.head_ = 3 ∧
    ((Sys.init 4).run [Ev.wcall [1, 2, 3, 4, 5, 6] 6, Ev.wstep, Ev.wstep, Ev.wstep,
        Ev.rcall [0, 0, 0] 3, Ev.rstep, Ev.rstep, Ev.rstep, Ev.wstep, Ev.wstep, Ev.wstep,
        Ev.close, Ev.stop]).ring.size_ ≤
      ((Sys.init 4).run [Ev.wcall [1, 2, 3, 4, 5, 6] 6, Ev.wstep, Ev.wstep, Ev.wstep,
        Ev.rcall [0, 0, 0] 3, Ev.rstep, Ev.rstep, Ev.rstep, Ev.wstep, Ev.wstep, Ev.wstep,
        Ev.close, Ev.stop]).ring.cap_ :=
  ⟨by decide,
   (ring_capacity_invariant 4 (by decide) [Ev.wcall [1, 2, 3, 4, 5, 6] 6, Ev.wstep, Ev.wstep,
      Ev.wstep, Ev.rcall [0, 0, 0] 3, Ev.rstep, Ev.rstep, Ev.rstep, Ev.wstep, Ev.wstep, Ev.wstep,
      Ev.close, Ev.stop] (by decide)).2.2.2.1⟩

/-- C2: byte-order preservation.  For every capacity `cap > 0` and every
schedule, the bytes delivered by the read passes, in order, are a prefix of the
bytes accepted by the write passes, in order, and the bytes still buffered are
exactly the rest: `accepted = delivered ++ contents`.  Passes that are split at
the physical end of the storage are included (every schedule is). -/
theorem ring_fifo (cap : Nat) (hcap : 0 < cap) (evs : List Ev) (hwf : ∀ e ∈ evs, e.wf) :
    ((Sys.init cap).run evs).delivered <+: ((Sys.init cap).run evs).accepted ∧
    ((Sys.init cap).run evs).accepted =
      ((Sys.init cap).run evs).delivered ++ ((Sys.init cap).run evs).ring.contents := by
  have h := run_inv (init_inv hcap) hwf
  exact ⟨⟨_, h.fifo.symm⟩, h.fifo⟩

/-- Witness of C2: a ring of capacity 4; 6 bytes are written in two passes, the
second of which wraps around the end of the storage, and are read in two
passes, the second of which wraps around as well. -/
theorem ring_fifo_witness :
    ((Sys.init 4).run [Ev.wcall [1, 2, 3, 4, 5, 6] 6, Ev.wstep, Ev.wstep, Ev.wstep,
        Ev.rcall [0, 0, 0] 3, Ev.rstep, Ev.rstep, Ev.rstep, Ev.wstep, Ev.wstep, Ev.wstep,
        Ev.rstep, Ev.rcall [0, 0, 0] 3, Ev.rstep, Ev.rstep, Ev.rstep]).ring.buf_ = [5, 6, 3, 4] ∧
    ((Sys.init 4).run [Ev.wcall [1, 2, 3, 4, 5, 6] 6, Ev.wstep, Ev.wstep, Ev.wstep,
        Ev.rcall [0, 0, 0] 3, Ev.rstep, Ev.rstep, Ev.rstep, Ev.wstep, Ev.wstep, Ev.wstep,
        Ev.rstep, Ev.rcall [0, 0, 0] 3, Ev.rstep, Ev.rstep, Ev.rstep]).delivered =
      [1, 2, 3, 4, 5, 6] ∧
    ((Sys.init 4).run [Ev.wcall [1, 2, 3, 4, 5, 6] 6, Ev.wstep, Ev.wstep, Ev.wstep,
        Ev.rcall [0, 0, 0] 3, Ev.rstep, Ev.rstep, Ev.rstep, Ev.wstep, Ev.wstep, Ev.wstep,
        Ev.rstep, Ev.rcall [0, 0, 0] 3, Ev.rstep, Ev.rstep, Ev.rstep]).accepted =
      ((Sys.init 4).run [Ev.wcall [1, 2, 3, 4, 5, 6] 6, Ev.wstep, Ev.wstep, Ev.wstep,
        Ev.rcall [0, 0, 0] 3, Ev.rstep, Ev.rstep, Ev.rstep, Ev.wstep, Ev.wstep, Ev.wstep,
        Ev.rstep, Ev.rcall [0, 0, 0] 3, Ev.rstep, Ev.rstep, Ev.rstep]).delivered ++
      ((Sys.init 4).run [Ev.wcall [1, 2, 3, 4, 5, 6] 6, Ev.wstep, Ev.wstep, Ev.wstep,
        Ev.rcall [0, 0, 0] 3, Ev.rstep, Ev.rstep, Ev.rstep, Ev.wstep, Ev.wstep, Ev.wstep,
        Ev.rstep, Ev.rcall [0, 0, 0] 3, Ev.rstep, Ev.rstep, Ev.rstep]).ring.contents :=
  ⟨by decide, by decide,
   (ring_fifo 4 (by decide) [Ev.wcall [1, 2, 3, 4, 5, 6] 6, Ev.wstep, Ev.wstep, Ev.wstep,
      Ev.rcall [0, 0, 0] 3, Ev.rstep, Ev.rstep, Ev.rstep, Ev.wstep, Ev.wstep, Ev.wstep,
      Ev.rstep, Ev.rcall [0, 0, 0] 3, Ev.rstep, Ev.rstep, Ev.rstep] (by decide)).2⟩

/-! ## The contract of `writeBlocking` (C3) -/

theorem shape_map (f : Nat → Nat) (s : Sys) : (s.mapBytes f).shape = s.shape := by
  simp [Sys.shape, Sys.mapBytes, Ring.mapBytes]

theorem init_map (f : Nat → Nat) (hf : f 0 = 0) (cap : Nat) :
    (Sys.init cap).mapBytes f = Sys.init cap := by
  simp [Sys.init, Sys.mapBytes, Ring.mapBytes, Ring.new, hf]

/-- The shape of a run does not depend on the values of the bytes. -/
theorem shape_run (cap : Nat) (evs : List Ev) :
    ((Sys.init cap).run evs).shape =
      ((Sys.init cap).run (evs.map (Ev.mapBytes fun _ => 0))).shape := by
  rw [← init_map (fun _ => 0) rfl cap, run_map, shape_map, init_map _ rfl]

theorem map_zero (l : List Nat) : l.map (fun _ => 0) = List.replicate l.length 0 := by
  induction l with
  | nil => rfl
  | cons a t ih => simp [List.replicate_succ, ih]

theorem run_append (s : Sys) (a b : List Ev) : s.run (a ++ b) = (s.run a).run b := by
  simp [Sys.run, List.foldl_append]

theorem wstep_copy {s : Sys} (h : s.Inv) (hpc : s.w.pc = PC.locked) (hg : s.g_running = true) :
    s.writeBlockingStep.w.written = s.w.written + min (s.w.n - s.w.written) (s.ring.cap_ - s.ring.size_) ∧
    s.writeBlockingStep.ring.size_ = s.ring.size_ + min (s.w.n - s.w.written) (s.ring.cap_ - s.ring.size_) ∧
    s.writeBlockingStep.ring.contents = s.ring.contents ++
      (s.w.data.drop s.w.written).take (min (s.w.n - s.w.written) (s.ring.cap_ - s.ring.size_)) ∧
    s.writeBlockingStep.w.pc = PC.guard := by
  obtain ⟨r', hw, -, -, -, hsz, hct⟩ := writeBlockingCopy_spec h.ring s.w.data h.wle h.wbuf
  unfold Sys.writeBlockingStep
  rw [hpc]
  simp only [hg, Bool.not_true, Bool.false_eq_true, if_false, hw]
  exact ⟨trivial, hsz, hct, trivial⟩

theorem step_stuck_writer {s : Sys} {e : Ev} (he : e = Ev.wstep ∨ e = Ev.close)
    (hg : s.g_running = true) (hpc : s.w.pc = PC.guard ∨ s.w.pc = PC.wait)
    (hw : s.w.written < s.w.n) (hfull : s.ring.size_ = s.ring.cap_) :
    (s.step e).g_running = true ∧ ((s.step e).w.pc = PC.guard ∨ (s.step e).w.pc = PC.wait) ∧
    (s.step e).w.written = s.w.written ∧ (s.step e).w.n = s.w.n ∧ (s.step e).ring = s.ring := by
  unfold Sys.step
  split
  · exact ⟨hg, hpc, rfl, rfl, rfl⟩
  · rcases he with rfl | rfl
    · dsimp only
      unfold Sys.writeBlockingStep
      rcases hpc with hpc | hpc
      · rw [hpc]
        simp [hg, hw]
      · rw [hpc]
        dsimp only
        split
        · exact ⟨hg, Or.inr hpc, rfl, rfl, rfl⟩
        · have : s.ring.spaceCond s.g_running = false := by
            simp [Ring.spaceCond, hg, hfull]
          rw [this]
          exact ⟨hg, Or.inr hpc, rfl, rfl, rfl⟩
    · exact ⟨hg, hpc, rfl, rfl, rfl⟩

/-- While the flag is set and nothing is read, a writer in front of a full ring
does not return and copies nothing. -/
theorem full_ring_blocks_writer {evs : List Ev} : ∀ {s : Sys},
    (∀ e ∈ evs, e = Ev.wstep ∨ e = Ev.close) → s.g_running = true →
    (s.w.pc = PC.guard ∨ s.w.pc = PC.wait) → s.w.written < s.w.n →
    s.ring.size_ = s.ring.cap_ →
    (s.run evs).w.pc ≠ PC.ret ∧ (s.run evs).w.written = s.w.written ∧
      (s.run evs).ring = s.ring := by
  induction evs with
  | nil =>
    intro s _ _ hpc _ _
    refine ⟨?_, rfl, rfl⟩
    rcases hpc with h | h <;> simp [Sys.run, h]
  | cons e es ih =>
    intro s hev hg hpc hw hfull
    obtain ⟨hg', hpc', hw', hn', hr'⟩ :=
      step_stuck_writer (hev e (List.mem_cons_self _ _)) hg hpc hw hfull
    have := ih (s := s.step e) (fun e' he' => hev e' (List.mem_cons_of_mem _ he')) hg' hpc'
      (by rw [hw', hn']; exact hw) (by rw [hr']; exact hfull)
    rw [hw', hr'] at this
    exact this

theorem suffix_eq_of_length {α : Type} {a b : List α} (h : a <:+ b) (hl : b.length ≤ a.length) :
    a = b := by
  obtain ⟨t, rfl⟩ := h
  have : t.length = 0 := by rw [List.length_append] at hl; omega
  rw [List.length_eq_zero] at this
  simp [this]

set_option maxRecDepth 1000000 in
theorem scenarioFill_shape (data : List Nat) (h : data.length = 1500) :
    ((Sys.init 1000).run (scenarioFill data)).shape =
    { g_running := true, cap_ := 1000, head_ := 0, size_ := 1000, bufLen := 1000, wn := 1500,
      written := 1000, wpc := PC.guard, dataLen := 1500, rn := 0, got := 0, rpc := PC.ret,
      outLen := 0, acceptedLen := 1000, deliveredLen := 0, fault := false } := by
  rw [shape_run]
  simp only [scenarioFill, List.map, Ev.mapBytes, map_zero, h]
  decide

set_option maxRecDepth 1000000 in
theorem scenarioDrain_shape (data out : List Nat) (h : data.length = 1500)
    (ho : out.length = 1500) :
    ((Sys.init 1000).run (scenarioFill data ++ scenarioDrain out)).shape =
    { g_running := true, cap_ := 1000, head_ := 500, size_ := 0, bufLen := 1000, wn := 1500,
      written := 1500, wpc := PC.ret, dataLen := 1500, rn := 1500, got := 1500, rpc := PC.ret,
      outLen := 1500, acceptedLen := 1500, deliveredLen := 1500, fault := false } := by
  rw [shape_run]
  simp only [scenarioFill, scenarioDrain, List.map, Ev.mapBytes, map_zero, h, ho, List.cons_append,
    List.nil_append]
  decide

theorem scenarioFill_wf (data : List Nat) (h : data.length = 1500) :
    ∀ e ∈ scenarioFill data, e.wf := by
  intro e he
  simp only [scenarioFill, List.mem_cons, List.mem_singleton, List.not_mem_nil, or_false] at he
  rcases he with rfl | rfl | rfl | rfl <;> simp [Ev.wf, h]

theorem scenarioDrain_wf (out : List Nat) (h : out.length = 1500) :
    ∀ e ∈ scenarioDrain out, e.wf := by
  intro e he
  simp only [scenarioDrain, List.mem_cons, List.mem_singleton, List.not_mem_nil, or_false] at he
  rcases he with rfl | rfl | rfl | rfl | rfl | rfl | rfl | rfl | rfl | rfl | rfl | rfl | rfl <;>
    simp [Ev.wf, h]

theorem wstep_data (s : Sys) : s.writeBlockingStep.w.data = s.w.data := by
  unfold Sys.writeBlockingStep
  split
  · rfl
  · split <;> rfl
  · split
    · rfl
    · split <;> rfl
  · split
    · rfl
    · split <;> rfl

theorem rstep_data (s : Sys) : s.readBlockingStep.w.data = s.w.data := by
  unfold Sys.readBlockingStep
  split
  · rfl
  · split <;> rfl
  · split
    · rfl
    · split <;> rfl
  · split
    · rfl
    · split <;> rfl

theorem step_data (s : Sys) {e : Ev} (he : ∀ d n, e ≠ Ev.wcall d n) :
    (s.step e).w.data = s.w.data := by
  unfold Sys.step
  split
  · rfl
  · cases e with
    | stop => rfl
    | close => rfl
    | wcall d n => exact absurd rfl (he d n)
    | rcall out n => dsimp only; split <;> rfl
    | wstep => exact wstep_data s
    | rstep => exact rstep_data s

theorem run_data {evs : List Ev} : ∀ (s : Sys), (∀ e ∈ evs, ∀ d n, e ≠ Ev.wcall d n) →
    (s.run evs).w.data = s.w.data := by
  induction evs with
  | nil => intro s _; rfl
  | cons e es ih =>
    intro s h
    have := ih (s.step e) (fun e' he' => h e' (List.mem_cons_of_mem _ he'))
    rw [← step_data s (h e (List.mem_cons_self _ _)), ← this]
    rfl

theorem run_cons (s : Sys) (e : Ev) (es : List Ev) : s.run (e :: es) = (s.step e).run es := rfl

theorem scenarioFill_data (data : List Nat) :
    ((Sys.init 1000).run (scenarioFill data)).w.data = data := by
  rw [scenarioFill, run_cons, run_data]
  · rfl
  · intro e he d n
    simp only [List.mem_cons, List.mem_singleton, List.not_mem_nil, or_false] at he
    rcases he with rfl | rfl | rfl <;> simp

theorem scenarioDrain_data (data out : List Nat) :
    ((Sys.init 1000).run (scenarioFill data ++ scenarioDrain out)).w.data = data := by
  rw [scenarioFill, List.cons_append, run_cons, run_data]
  · rfl
  · intro e he d n
    simp only [scenarioDrain, List.cons_append, List.nil_append, List.mem_cons, List.mem_singleton,
      List.not_mem_nil, or_false] at he
    rcases he with rfl | rfl | rfl | rfl | rfl | rfl | rfl | rfl | rfl | rfl | rfl | rfl | rfl |
      rfl | rfl | rfl <;> simp

/-- C3: the contract of `writeBlocking`.
(1) In every reachable state `written ≤ n`, and a call that has returned with
`written < n` has seen `g_running` cleared.
(2) A pass that reaches the copy with the flag set copies exactly
`min (n - written) (cap_ - size_)` bytes, the next bytes of `data`, to the end
of the buffered bytes.
(3) Capacity 1000, empty ring, `n = 1500`: the first pass stores exactly the
first 1000 bytes; as long as only the writer runs (and `close()` is called) the
call does not return and stores nothing more; once the reader has drained the
ring the call returns 1500, and the reader has received the 1500 bytes in
their original order. -/
theorem writeBlocking_contract :
    (∀ (cap : Nat) (evs : List Ev), 0 < cap → (∀ e ∈ evs, e.wf) →
      ((Sys.init cap).run evs).w.written ≤ ((Sys.init cap).run evs).w.n ∧
      (((Sys.init cap).run evs).w.pc = PC.ret →
        ((Sys.init cap).run evs).w.written < ((Sys.init cap).run evs).w.n →
        ((Sys.init cap).run evs).g_running = false)) ∧
    (∀ (cap : Nat) (evs : List Ev), 0 < cap → (∀ e ∈ evs, e.wf) →
      ((Sys.init cap).run evs).w.pc = PC.locked → ((Sys.init cap).run evs).g_running = true →
      (((Sys.init cap).run evs).step Ev.wstep).w.written =
        ((Sys.init cap).run evs).w.written +
          min (((Sys.init cap).run evs).w.n - ((Sys.init cap).run evs).w.written)
            (((Sys.init cap).run evs).ring.cap_ - ((Sys.init cap).run evs).ring.size_) ∧
      (((Sys.init cap).run evs).step Ev.wstep).ring.size_ =
        ((Sys.init cap).run evs).ring.size_ +
          min (((Sys.init cap).run evs).w.n - ((Sys.init cap).run evs).w.written)
            (((Sys.init cap).run evs).ring.cap_ - ((Sys.init cap).run evs).ring.size_) ∧
      (((Sys.init cap).run evs).step Ev.wstep).ring.contents =
        ((Sys.init cap).run evs).ring.contents ++
          ((((Sys.init cap).run evs).w.data.drop ((Sys.init cap).run evs).w.written).take
            (min (((Sys.init cap).run evs).w.n - ((Sys.init cap).run evs).w.written)
              (((Sys.init cap).run evs).ring.cap_ - ((Sys.init cap).run evs).ring.size_)))) ∧
    (∀ data out : List Nat, data.length = 1500 → out.length = 1500 →
      ((Sys.init 1000).run (scenarioFill data)).ring.size_ = 1000 ∧
      ((Sys.init 1000).run (scenarioFill data)).w.written = 1000 ∧
      ((Sys.init 1000).run (scenarioFill data)).ring.contents = data.take 1000 ∧
      (∀ evs : List Ev, (∀ e ∈ evs, e = Ev.wstep ∨ e = Ev.close) →
        (((Sys.init 1000).run (scenarioFill data)).run evs).w.pc ≠ PC.ret ∧
        (((Sys.init 1000).run (scenarioFill data)).run evs).w.written = 1000 ∧
        (((Sys.init 1000).run (scenarioFill data)).run evs).ring.size_ = 1000) ∧
      ((Sys.init 1000).run (scenarioFill data ++ scenarioDrain out)).w.pc = PC.ret ∧
      ((Sys.init 1000).run (scenarioFill data ++ scenarioDrain out)).w.written = 1500 ∧
      ((Sys.init 1000).run (scenarioFill data ++ scenarioDrain out)).rd.pc = PC.ret ∧
      ((Sys.init 1000).run (scenarioFill data ++ scenarioDrain out)).rd.got = 1500 ∧
      ((Sys.init 1000).run (scenarioFill data ++ scenarioDrain out)).rd.out = data ∧
      ((Sys.init 1000).run (scenarioFill data ++ scenarioDrain out)).delivered = data) := by
  refine ⟨?_, ?_, ?_⟩
  · intro cap evs hcap hwf
    have h := run_inv (init_inv hcap) hwf
    refine ⟨h.wle, fun hpc hlt => ?_⟩
    rcases h.wret hpc with heq | hg
    · omega
    · exact hg
  · intro cap evs hcap hwf hpc hg
    have h := run_inv (init_inv hcap) hwf
    have hs : ((Sys.init cap).run evs).step Ev.wstep = ((Sys.init cap).run evs).writeBlockingStep := by
      unfold Sys.step
      rw [if_neg (by simp [h.nofault])]
    rw [hs]
    obtain ⟨h1, h2, h3, -⟩ := wstep_copy h hpc hg
    exact ⟨h1, h2, h3⟩
  · intro data out hd ho
    have hwf1 := scenarioFill_wf data hd
    have hwf2 : ∀ e ∈ scenarioFill data ++ scenarioDrain out, e.wf := by
      intro e he
      rcases List.mem_append.1 he with h | h
      · exact hwf1 e h
      · exact scenarioDrain_wf out ho e h
    have hdata1 := scenarioFill_data data
    have hdata2 := scenarioDrain_data data out
    have hi1 := run_inv (init_inv (by decide : 0 < 1000)) hwf1
    have hi2 := run_inv (init_inv (by decide : 0 < 1000)) hwf2
    have hs1 := scenarioFill_shape data hd
    have hs2 := scenarioDrain_shape data out hd ho
    generalize (Sys.init 1000).run (scenarioFill data) = s1 at hi1 hs1 hdata1 ⊢
    generalize (Sys.init 1000).run (scenarioFill data ++ scenarioDrain out) = s2
      at hi2 hs2 hdata2 ⊢
    simp only [Sys.shape, Shape.mk.injEq] at hs1 hs2
    obtain ⟨g1, c1, -, z1, -, n1, w1, p1, dl1, -, -, rp1, -, al1, dl1', -⟩ := hs1
    obtain ⟨-, -, -, z2, -, n2, w2, p2, dl2, -, gt2, rp2, ol2, al2, dl2', -⟩ := hs2
    have hdel1 : s1.delivered = [] := List.length_eq_zero.1 dl1'
    have hacc1 : s1.w.data.take s1.w.written = s1.accepted :=
      suffix_eq_of_length hi1.wsuf (by rw [List.length_take, al1, w1, dl1]; decide)
    have hacc2 : s2.w.data.take s2.w.written = s2.accepted :=
      suffix_eq_of_length hi2.wsuf (by rw [List.length_take, al2, w2, dl2]; decide)
    have hdel2 : s2.rd.out.take s2.rd.got = s2.delivered :=
      suffix_eq_of_length hi2.rsuf (by rw [List.length_take, dl2', gt2, ol2]; decide)
    have hct2 : s2.ring.contents = [] :=
      List.length_eq_zero.1 (by rw [contents_length, z2])
    have hfin : s2.delivered = data := by
      have := hi2.fifo
      rw [hct2, List.append_nil, ← hacc2, w2, hdata2, List.take_of_length_le (by omega)] at this
      exact this.symm
    refine ⟨z1, w1, ?_, ?_, p2, w2, rp2, gt2, ?_, ?_⟩
    · have := hi1.fifo
      rw [hdel1, List.nil_append, ← hacc1, w1, hdata1] at this
      exact this.symm
    · intro evs hev
      obtain ⟨a, b, c⟩ := full_ring_blocks_writer (s := s1) hev g1 (Or.inl p1)
        (by rw [w1, n1]; decide) (by rw [z1, c1])
      exact ⟨a, b.trans w1, by rw [c, z1]⟩
    · rw [← hfin, ← hdel2, gt2, List.take_of_length_le (by omega)]
    · exact hfin

/-- Witness of C3: the scenario with the bytes `0, 1, ..., 255, 0, 1, ...`. -/
theorem writeBlocking_contract_witness :
    ((Sys.init 1000).run (scenarioFill ((List.range 1500).map (· % 256)) ++
      scenarioDrain (List.replicate 1500 0))).rd.out = (List.range 1500).map (· % 256) :=
  (writeBlocking_contract.2.2 ((List.range 1500).map (· % 256)) (List.replicate 1500 0)
    (by rw [List.length_map, List.length_range]) (List.length_replicate _ _)).2.2.2.2.2.2.2.2.1

/-! ## Shutdown and `close()` (C4, C5, C6) -/

set_option maxRecDepth 1000000 in
/-- C4, the code at the failing input: the ring is shut down (`g_running`
cleared, `close()` called) while it holds 200 bytes; `readBlocking(out, 500)`
leaves at its loop guard `while (g_running && got < n)`: it returns 0, `out` is
untouched and the 200 bytes stay in the ring. -/
theorem readBlocking_after_shutdown_returns_zero :
    ((Sys.init 1000).run drainSchedule).g_running = false ∧
    ((Sys.init 1000).run drainSchedule).rd.pc = PC.ret ∧
    ((Sys.init 1000).run drainSchedule).rd.got = 0 ∧
    ((Sys.init 1000).run drainSchedule).rd.out = List.replicate 500 0 ∧
    ((Sys.init 1000).run drainSchedule).ring.size_ = 200 ∧
    ((Sys.init 1000).run drainSchedule).ring.contents = List.replicate 200 7 ∧
    ((Sys.init 1000).run drainSchedule).fault = false := by
  decide

theorem step_stuck_reader {s : Sys} {e : Ev} (he : e = Ev.rstep ∨ e = Ev.close)
    (hg : s.g_running = true) (hpc : s.rd.pc = PC.wait) (hempty : s.ring.size_ = 0) :
    (s.step e).g_running = true ∧ (s.step e).rd.pc = PC.wait ∧ (s.step e).ring = s.ring := by
  unfold Sys.step
  split
  · exact ⟨hg, hpc, rfl⟩
  · rcases he with rfl | rfl
    · dsimp only
      unfold Sys.readBlockingStep
      rw [hpc]
      dsimp only
      split
      · exact ⟨hg, hpc, rfl⟩
      · have : s.ring.dataCond s.g_running = false := by
          simp [Ring.dataCond, hg, hempty]
        rw [this]
        exact ⟨hg, hpc, rfl⟩
    · exact ⟨hg, hpc, rfl⟩

/-- While the flag is set and nothing is written, a reader waiting on an empty
ring keeps waiting, whatever number of `close()` calls and wake-ups happen. -/
theorem empty_ring_blocks_reader {evs : List Ev} : ∀ {s : Sys},
    (∀ e ∈ evs, e = Ev.rstep ∨ e = Ev.close) → s.g_running = true →
    s.rd.pc = PC.wait → s.ring.size_ = 0 →
    (s.run evs).g_running = true ∧ (s.run evs).rd.pc = PC.wait ∧ (s.run evs).ring = s.ring := by
  induction evs with
  | nil => intro s _ hg hpc _; exact ⟨hg, hpc, rfl⟩
  | cons e es ih =>
    intro s hev hg hpc hempty
    obtain ⟨hg', hpc', hr'⟩ := step_stuck_reader (hev e (List.mem_cons_self _ _)) hg hpc hempty
    have := ih (s := s.step e) (fun e' he' => hev e' (List.mem_cons_of_mem _ he')) hg' hpc'
      (by rw [hr']; exact hempty)
    rw [hr'] at this
    exact this

/-- C5, the code at the failing input: the reader waits in
`readBlocking(out, 500)` on the empty ring; the capture thread leaves its loop
by `break` (recovery failed, `g_running` still set) and calls `ring.close()`.
In the state reached the wait predicate of `readBlocking` is false, and after
any number `k` of further wake-ups the reader is still waiting.  In the same
way a writer in front of a full ring is still inside `writeBlocking` after
`close()` and `k` wake-ups, its wait predicate being false. -/
theorem close_with_flag_set_leaves_waiters_suspended (k : Nat) :
    ((Sys.init 1000).run (readerSuspended ++ captureAfterLoop)).ring.dataCond
        ((Sys.init 1000).run (readerSuspended ++ captureAfterLoop)).g_running = false ∧
    ((Sys.init 1000).run (readerSuspended ++ captureAfterLoop ++
      List.replicate k Ev.rstep)).rd.pc = PC.wait ∧
    ((Sys.init 1000).run (writerSuspended ++ [Ev.close])).ring.spaceCond
        ((Sys.init 1000).run (writerSuspended ++ [Ev.close])).g_running = false ∧
    ((Sys.init 1000).run (writerSuspended ++ [Ev.close] ++
      List.replicate k Ev.wstep)).w.pc ≠ PC.ret := by
  have h0 : ((Sys.init 1000).run (readerSuspended ++ captureAfterLoop)).shape =
      { g_running := true, cap_ := 1000, head_ := 0, size_ := 0, bufLen := 1000, wn := 0,
        written := 0, wpc := PC.ret, dataLen := 0, rn := 500, got := 0, rpc := PC.wait,
        outLen := 500, acceptedLen := 0, deliveredLen := 0, fault := false } := by
    set_option maxRecDepth 1000000 in decide
  have h1 : ((Sys.init 1000).run (writerSuspended ++ [Ev.close])).shape =
      { g_running := true, cap_ := 1000, head_ := 0, size_ := 1000, bufLen := 1000, wn := 1500,
        written := 1000, wpc := PC.wait, dataLen := 1500, rn := 0, got := 0, rpc := PC.ret,
        outLen := 0, acceptedLen := 1000, deliveredLen := 0, fault := false } := by
    set_option maxRecDepth 1000000 in decide
  rw [run_append _ _ (List.replicate k Ev.rstep), run_append _ _ (List.replicate k Ev.wstep)]
  generalize (Sys.init 1000).run (readerSuspended ++ captureAfterLoop) = s at h0 ⊢
  generalize (Sys.init 1000).run (writerSuspended ++ [Ev.close]) = s' at h1 ⊢
  simp only [Sys.shape, Shape.mk.injEq] at h0 h1
  obtain ⟨g, -, -, z, -, -, -, -, -, -, -, rp, -⟩ := h0
  obtain ⟨g', c', -, z', -, n', w', p', -⟩ := h1
  refine ⟨by simp [Ring.dataCond, g, z], ?_, by simp [Ring.spaceCond, g', z', c'], ?_⟩
  · exact (empty_ring_blocks_reader (s := s)
      (fun e he => Or.inl (List.eq_of_mem_replicate he)) g rp z).2.1
  · exact (full_ring_blocks_writer (s := s')
      (fun e he => Or.inl (List.eq_of_mem_replicate he)) g' (Or.inr p')
      (by rw [w', n']; decide) (by rw [z', c'])).1

/-- C6: `close()` changes no data member of the ring (occupancy, read offset,
capacity, every stored byte), hence not the buffered bytes, and calling it
twice gives the same state as calling it once; the same holds for the whole
shared state. -/
theorem close_frame_idempotent :
    (∀ r : Ring, r.close.size_ = r.size_ ∧ r.close.head_ = r.head_ ∧ r.close.cap_ = r.cap_ ∧
      r.close.buf_ = r.buf_ ∧ r.close.contents = r.contents ∧ r.close.close = r.close) ∧
    (∀ s : Sys, s.step Ev.close = s ∧ (s.step Ev.close).step Ev.close = s.step Ev.close) := by
  refine ⟨fun r => ⟨rfl, rfl, rfl, rfl, rfl, rfl⟩, fun s => ?_⟩
  have h : s.step Ev.close = s := by
    unfold Sys.step
    split <;> rfl
  exact ⟨h, by rw [h, h]⟩

/-! ## The gain stage (C7, C8) -/

theorem excessBits_spec : ∀ (fuel M : Nat), M < 2 ^ (24 + fuel) →
    M / 2 ^ (F32.excessBits fuel M) < 2 ^ 24 ∧
    (0 < F32.excessBits fuel M → 2 ^ 23 ≤ M / 2 ^ (F32.excessBits fuel M)) ∧
    (M < 2 ^ 24 → F32.excessBits fuel M = 0) := by
  intro fuel
  induction fuel with
  | zero =>
    intro M h
    simp only [F32.excessBits, pow_zero, Nat.div_one]
    exact ⟨h, fun h0 => absurd h0 (by decide), fun _ => trivial⟩
  | succ f ih =>
    intro M h
    unfold F32.excessBits
    by_cases hM : M < 2 ^ 24
    · rw [if_pos hM]
      simp only [pow_zero, Nat.div_one]
      exact ⟨hM, fun h0 => absurd h0 (by decide), fun _ => trivial⟩
    · rw [if_neg hM]
      have h2 : M / 2 < 2 ^ (24 + f) := by
        have : 2 ^ (24 + (f + 1)) = 2 * 2 ^ (24 + f) := by
          rw [← Nat.add_assoc, Nat.pow_succ, Nat.mul_comm]
        omega
      obtain ⟨a, b, c⟩ := ih (M / 2) h2
      have hdiv : M / 2 ^ (F32.excessBits f (M / 2) + 1) = M / 2 / 2 ^ F32.excessBits f (M / 2) := by
        rw [Nat.pow_succ, Nat.mul_comm, Nat.div_div_eq_div_mul]
      rw [hdiv]
      refine ⟨a, fun _ => ?_, fun h' => absurd h' hM⟩
      by_cases hk : 0 < F32.excessBits f (M / 2)
      · exact b hk
      · have hk0 : F32.excessBits f (M / 2) = 0 := by omega
        rw [hk0]
        simp only [pow_zero, Nat.div_one]
        omega

theorem excessBits_self (M : Nat) :
    M / 2 ^ (F32.excessBits M M) < 2 ^ 24 ∧
    (0 < F32.excessBits M M → 2 ^ 23 ≤ M / 2 ^ (F32.excessBits M M)) ∧
    (M < 2 ^ 24 → F32.excessBits M M = 0) := by
  apply excessBits_spec
  calc M < 2 ^ M := Nat.lt_two_pow M
    _ ≤ 2 ^ (24 + M) := Nat.pow_le_pow_right (by decide) (by omega)

/-- The shape of a rounded product whose exponent is not below the subnormal
range. -/
theorem round_cases (neg : Bool) (M : Nat) (E : Int) (hE : -149 ≤ E) :
    ∃ k q : Nat, (k = 0 → q = M) ∧ (0 < k → 2 ^ 23 ≤ M / 2 ^ k) ∧
      (q = M / 2 ^ k ∨ (q = M / 2 ^ k + 1 ∧ M % 2 ^ k ≠ 0)) ∧
      ((F32.round neg M E = F32.inf neg ∧ 0 ≤ E + (k : Int) ∧
          2 ^ 128 ≤ q * 2 ^ (E + (k : Int)).toNat) ∨
        F32.round neg M E = F32.finite neg q (E + (k : Int))) := by
  obtain ⟨-, hk23, -⟩ := excessBits_self M
  have hsub : (-149 - E).toNat = 0 := by omega
  unfold F32.round
  simp only [hsub, Nat.max_zero]
  generalize F32.excessBits M M = k at hk23 ⊢
  generalize hq : (if 2 * (M % 2 ^ k) > 2 ^ k ∨ (2 * (M % 2 ^ k) = 2 ^ k ∧ M / 2 ^ k % 2 = 1)
    then M / 2 ^ k + 1 else M / 2 ^ k) = q
  refine ⟨k, q, ?_, hk23, ?_, ?_⟩
  · intro hk0
    subst hk0
    rw [← hq]
    simp [Nat.mod_one]
  · rw [← hq]
    split
    · rename_i hup
      right
      refine ⟨rfl, ?_⟩
      rcases hup with h | ⟨h, -⟩
      · omega
      · have : 0 < 2 ^ k := Nat.pow_pos (by decide)
        omega
    · left; rfl
  · split
    · rename_i hov
      left
      exact ⟨rfl, hov.1, hov.2⟩
    · right; rfl

theorem ofInt_max : F32.ofInt 32767 = F32.finite false 32767 0 := by decide

theorem ofInt_min : F32.ofInt (-32768) = F32.finite true 32768 0 := by decide

theorem clampCast_pos (q : Nat) (ex : Int) :
    clampCast (F32.finite false q ex) = some ((min 32767 (magFloor q ex) : Nat) : Int) := by
  unfold magFloor
  simp only [clampCast, ofInt_max, ofInt_min]
  by_cases hex : 0 ≤ ex
  · have hmin : min 0 ex = 0 := min_eq_left hex
    have hmin' : min ex 0 = 0 := min_eq_right hex
    generalize hV : q * 2 ^ ex.toNat = V
    have hVi : (q : Int) * 2 ^ ex.toNat = (V : Int) := by rw [← hV]; push_cast; rfl
    by_cases hlt : 32767 < V
    · have h1 : F32.lt (F32.finite false 32767 0) (F32.finite false q ex) = true := by
        simp only [F32.lt, F32.signed, hmin, sub_zero, hVi, Int.toNat_zero, pow_zero, mul_one,
          Bool.false_eq_true, if_false, decide_eq_true_eq]
        exact_mod_cast hlt
      rw [if_pos h1, if_pos hex]
      have h2 : F32.lt (F32.finite false 32767 0) (F32.finite true 32768 0) = false := by decide
      rw [h2]
      simp only [Bool.false_eq_true, if_false]
      have : min 32767 V = 32767 := by omega
      rw [this]
      decide
    · have h1 : F32.lt (F32.finite false 32767 0) (F32.finite false q ex) = false := by
        simp only [F32.lt, F32.signed, hmin, sub_zero, hVi, Int.toNat_zero, pow_zero, mul_one,
          Bool.false_eq_true, if_false, decide_eq_false_iff_not]
        exact_mod_cast hlt
      have h2 : F32.lt (F32.finite false q ex) (F32.finite true 32768 0) = false := by
        simp only [F32.lt, F32.signed, hmin', sub_zero, hVi, Int.toNat_zero, pow_zero, mul_one,
          Bool.false_eq_true, if_false, if_true, decide_eq_false_iff_not]
        omega
      rw [h1]
      simp only [Bool.false_eq_true, if_false, h2, if_pos hex]
      simp only [F32.toInt16, F32.signed, if_pos hex, hV, Bool.false_eq_true, if_false]
      have : min 32767 V = V := by omega
      rw [this, if_pos (by omega)]
  · have hmin : min 0 ex = ex := min_eq_right (by omega)
    have hmin' : min ex 0 = ex := min_eq_left (by omega)
    have hK : 0 < 2 ^ (-ex).toNat := Nat.pow_pos (by decide)
    generalize hKd : 2 ^ (-ex).toNat = K at hK
    have hKi : (2 : Int) ^ (-ex).toNat = (K : Int) := by rw [← hKd]; push_cast; rfl
    have hdiv1 : 32767 * K < q → 32767 ≤ q / K := fun h =>
      (Nat.le_div_iff_mul_le hK).2 (by omega)
    have hdiv2 : ¬ 32767 * K < q → q / K ≤ 32767 := fun h =>
      Nat.div_le_of_le_mul (by rw [Nat.mul_comm]; omega)
    by_cases hlt : 32767 * K < q
    · have h1 : F32.lt (F32.finite false 32767 0) (F32.finite false q ex) = true := by
        simp only [F32.lt, F32.signed, hmin, zero_sub, sub_self, hKi, Int.toNat_zero, pow_zero,
          mul_one, Bool.false_eq_true, if_false, decide_eq_true_eq]
        exact_mod_cast hlt
      rw [if_pos h1, if_neg hex]
      have h2 : F32.lt (F32.finite false 32767 0) (F32.finite true 32768 0) = false := by decide
      rw [h2]
      simp only [Bool.false_eq_true, if_false]
      have hge := hdiv1 hlt
      generalize q / K = t at hge ⊢
      have hm : min 32767 t = 32767 := by omega
      rw [hm]
      decide
    · have h1 : F32.lt (F32.finite false 32767 0) (F32.finite false q ex) = false := by
        simp only [F32.lt, F32.signed, hmin, zero_sub, sub_self, hKi, Int.toNat_zero, pow_zero,
          mul_one, Bool.false_eq_true, if_false, decide_eq_false_iff_not]
        exact_mod_cast hlt
      have h2 : F32.lt (F32.finite false q ex) (F32.finite true 32768 0) = false := by
        simp only [F32.lt, F32.signed, hmin', zero_sub, sub_self, hKi, Int.toNat_zero, pow_zero,
          mul_one, Bool.false_eq_true, if_false, if_true, decide_eq_false_iff_not]
        have : (0 : Int) ≤ 32768 * (K : Int) := by positivity
        omega
      rw [h1]
      simp only [Bool.false_eq_true, if_false, h2, if_neg hex]
      simp only [F32.toInt16, F32.signed, if_neg hex, hKd, Bool.false_eq_true, if_false]
      have hle := hdiv2 hlt
      generalize q / K = t at hle ⊢
      have hm : min 32767 t = t := by omega
      rw [hm, if_pos (by omega)]

theorem clampCast_neg (q : Nat) (ex : Int) :
    clampCast (F32.finite true q ex) = some (-((min 32768 (magFloor q ex) : Nat) : Int)) := by
  unfold magFloor
  simp only [clampCast, ofInt_max, ofInt_min]
  by_cases hex : 0 ≤ ex
  · have hmin : min 0 ex = 0 := min_eq_left hex
    have hmin' : min ex 0 = 0 := min_eq_right hex
    generalize hV : q * 2 ^ ex.toNat = V
    have hVi : (q : Int) * 2 ^ ex.toNat = (V : Int) := by rw [← hV]; push_cast; rfl
    have h1 : F32.lt (F32.finite false 32767 0) (F32.finite true q ex) = false := by
      simp only [F32.lt, F32.signed, hmin, sub_zero, neg_mul, hVi, Int.toNat_zero, pow_zero,
        mul_one, Bool.false_eq_true, if_false, if_true, decide_eq_false_iff_not]
      omega
    rw [h1]
    simp only [Bool.false_eq_true, if_false, if_pos hex]
    by_cases hlt : 32768 < V
    · have h2 : F32.lt (F32.finite true q ex) (F32.finite true 32768 0) = true := by
        simp only [F32.lt, F32.signed, hmin', sub_zero, neg_mul, hVi, Int.toNat_zero, pow_zero,
          mul_one, if_true, decide_eq_true_eq]
        omega
      rw [if_pos h2]
      have hm : min 32768 V = 32768 := by omega
      rw [hm]
      decide
    · have h2 : F32.lt (F32.finite true q ex) (F32.finite true 32768 0) = false := by
        simp only [F32.lt, F32.signed, hmin', sub_zero, neg_mul, hVi, Int.toNat_zero, pow_zero,
          mul_one, if_true, decide_eq_false_iff_not]
        omega
      rw [h2]
      simp only [Bool.false_eq_true, if_false]
      simp only [F32.toInt16, F32.signed, if_pos hex, hV, if_true]
      have hm : min 32768 V = V := by omega
      rw [hm, if_pos (by omega)]
  · have hmin : min 0 ex = ex := min_eq_right (by omega)
    have hmin' : min ex 0 = ex := min_eq_left (by omega)
    have hK : 0 < 2 ^ (-ex).toNat := Nat.pow_pos (by decide)
    generalize hKd : 2 ^ (-ex).toNat = K at hK
    have hKi : (2 : Int) ^ (-ex).toNat = (K : Int) := by rw [← hKd]; push_cast; rfl
    have hdiv1 : 32768 * K < q → 32768 ≤ q / K := fun h =>
      (Nat.le_div_iff_mul_le hK).2 (by omega)
    have hdiv2 : ¬ 32768 * K < q → q / K ≤ 32768 := fun h =>
      Nat.div_le_of_le_mul (by rw [Nat.mul_comm]; omega)
    have h1 : F32.lt (F32.finite false 32767 0) (F32.finite true q ex) = false := by
      simp only [F32.lt, F32.signed, hmin, zero_sub, sub_self, hKi, Int.toNat_zero, pow_zero,
        mul_one, Bool.false_eq_true, if_false, if_true, decide_eq_false_iff_not]
      have : (0 : Int) ≤ 32767 * (K : Int) := by positivity
      omega
    rw [h1]
    simp only [Bool.false_eq_true, if_false, if_neg hex]
    by_cases hlt : 32768 * K < q
    · have h2 : F32.lt (F32.finite true q ex) (F32.finite true 32768 0) = true := by
        simp only [F32.lt, F32.signed, hmin', zero_sub, sub_self, hKi, Int.toNat_zero, pow_zero,
          mul_one, if_true, decide_eq_true_eq]
        have : ((32768 * K : Nat) : Int) < (q : Int) := by exact_mod_cast hlt
        push_cast at this
        omega
      rw [if_pos h2]
      have hge := hdiv1 hlt
      generalize q / K = t at hge ⊢
      have hm : min 32768 t = 32768 := by omega
      rw [hm]
      decide
    · have h2 : F32.lt (F32.finite true q ex) (F32.finite true 32768 0) = false := by
        simp only [F32.lt, F32.signed, hmin', zero_sub, sub_self, hKi, Int.toNat_zero, pow_zero,
          mul_one, if_true, decide_eq_false_iff_not]
        have : ¬ ((32768 * K : Nat) : Int) < (q : Int) := by exact_mod_cast hlt
        push_cast at this
        omega
      rw [h2]
      simp only [Bool.false_eq_true, if_false]
      simp only [F32.toInt16, F32.signed, if_neg hex, hKd, if_true]
      have hle := hdiv2 hlt
      generalize q / K = t at hle ⊢
      have hm : min 32768 t = t := by omega
      rw [hm, if_pos (by omega)]

theorem clampCast_inf_pos : clampCast (F32.inf false) = some 32767 := by decide

theorem clampCast_inf_neg : clampCast (F32.inf true) = some (-32768) := by decide

theorem ofInt_small (s : Int) (h : s.natAbs < 2 ^ 24) :
    F32.ofInt s = F32.finite (decide (s < 0)) s.natAbs 0 := by
  obtain ⟨-, -, hk⟩ := excessBits_self s.natAbs
  unfold F32.ofInt F32.round
  have hlt : s.natAbs < 340282366920938463463374607431768211456 := by omega
  simp [hk h, Nat.mod_one, hlt]

theorem magFloor_big {M k : Nat} {E : Int} (hk : 2 ^ 23 ≤ M / 2 ^ k) (hEk : 0 ≤ E + (k : Int)) :
    32768 ≤ magFloor M E := by
  have hM : M / 2 ^ k ≤ M := Nat.div_le_self _ _
  unfold magFloor
  split
  · have : 1 ≤ 2 ^ E.toNat := Nat.one_le_two_pow
    calc 32768 ≤ M := by omega
      _ = M * 1 := (Nat.mul_one M).symm
      _ ≤ M * 2 ^ E.toNat := Nat.mul_le_mul_left M this
  · have hjk : (-E).toNat ≤ k := by omega
    have hpow : 2 ^ (-E).toNat ≤ 2 ^ k := Nat.pow_le_pow_right (by decide) hjk
    have : M / 2 ^ k ≤ M / 2 ^ (-E).toNat :=
      Nat.div_le_div_left hpow (Nat.pow_pos (by decide))
    omega

theorem ge_zero_finite {neg : Bool} {m : Nat} {e : Int}
    (h : F32.ge (F32.finite neg m e) F32.zero = true) : neg = false ∨ m = 0 := by
  cases neg
  · exact Or.inl rfl
  · right
    by_contra hm
    have hpos : (0 : Int) < (m : Int) := by omega
    have hp : (0 : Int) < 2 ^ (e - min 0 e).toNat := by positivity
    have hneg : -(m : Int) * 2 ^ (e - min 0 e).toNat < 0 := by
      have := mul_pos hpos hp
      simp only [neg_mul]
      omega
    simp only [F32.ge, F32.lt, F32.eq, F32.zero, F32.signed, Bool.false_eq_true, if_false, if_true,
      Nat.cast_zero, zero_mul, Bool.or_eq_true, decide_eq_true_eq] at h
    rcases h with h | h <;> omega

theorem processFrom_spec (gain : F32) : ∀ (k i : Nat) (samples : List Int),
    i + k ≤ samples.length →
    (∀ j, i ≤ j → j < i + k → ∃ s r, samples[j]? = some s ∧ processSample gain s = some r) →
    ∃ out, processFrom gain k i samples = some out ∧ out.length = samples.length ∧
      ∀ j, out[j]? = if i ≤ j ∧ j < i + k then (samples[j]?).bind (processSample gain)
        else samples[j]? := by
  intro k
  induction k with
  | zero =>
    intro i samples _ _
    refine ⟨samples, rfl, rfl, fun j => ?_⟩
    rw [if_neg (by omega)]
  | succ k ih =>
    intro i samples hlen hdef
    obtain ⟨s, r, hs, hr⟩ := hdef i (Nat.le_refl _) (by omega)
    have hset : ∀ j, (samples.set i r)[j]? = if i = j then some r else samples[j]? := by
      intro j
      rw [List.getElem?_set]
      by_cases hij : i = j
      · subst hij
        simp only [if_true]
        rw [if_pos (by omega)]
      · simp only [hij, if_false]
    obtain ⟨out, ho, hol, hoj⟩ := ih (i + 1) (samples.set i r)
      (by rw [List.length_set]; omega)
      (fun j h1 h2 => by
        obtain ⟨s', r', hs', hr'⟩ := hdef j (by omega) (by omega)
        refine ⟨s', r', ?_, hr'⟩
        rw [hset, if_neg (by omega)]
        exact hs')
    refine ⟨out, ?_, by rw [hol, List.length_set], fun j => ?_⟩
    · unfold processFrom
      simp only [hs, hr, Option.bind_eq_bind, Option.some_bind]
      exact ho
    · rw [hoj j, hset]
      by_cases hij : i = j
      · subst hij
        rw [if_neg (by omega), if_pos rfl, if_pos (by omega), hs]
        simp only [Option.some_bind]
        exact hr.symm
      · rw [if_neg hij]
        by_cases hin : i + 1 ≤ j ∧ j < i + 1 + k
        · rw [if_pos hin, if_pos (by omega)]
        · rw [if_neg hin, if_neg (by omega)]

theorem saturate_neg_min (t : Nat) : -((min 32768 t : Nat) : Int) = saturate (-(t : Int)) := by
  unfold saturate
  omega

theorem saturate_min (t : Nat) : ((min 32767 t : Nat) : Int) = saturate (t : Int) := by
  unfold saturate
  omega

theorem clampCast_spec (x : F32) : clampCast x = some (saturateFloat x) := by
  cases x with
  | finite neg q ex =>
    cases neg
    · rw [clampCast_pos]
      simp only [saturateFloat, F32.signed, Bool.false_eq_true, if_false]
      rw [saturate_min]
    · rw [clampCast_neg]
      simp only [saturateFloat, F32.signed, if_true]
      rw [saturate_neg_min]
  | inf neg =>
    cases neg
    · exact clampCast_inf_pos
    · exact clampCast_inf_neg
  | nan => decide

theorem round_exact (neg : Bool) (M : Nat) (E : Int) (hE : -149 ≤ E) :
    (F32.round neg M E = F32.inf neg ∧ 32768 ≤ magFloor M E) ∨
    ∃ q ex, F32.round neg M E = F32.finite neg q ex ∧ RoundRel M E (magFloor q ex) := by
  obtain ⟨k, q, hk0, hk23, hq, hr⟩ := round_cases neg M E hE
  rcases hr with ⟨hinf, hEk, hov⟩ | hfin
  · refine Or.inl ⟨hinf, ?_⟩
    by_cases hk : 0 < k
    · exact magFloor_big (hk23 hk) hEk
    · have hk' : k = 0 := by omega
      subst hk'
      have hqM := hk0 rfl
      subst hqM
      simp only [Nat.cast_zero, add_zero] at hEk hov
      unfold magFloor
      rw [if_pos hEk]
      omega
  · refine Or.inr ⟨q, E + k, hfin, ?_⟩
    by_cases hk : 0 < k
    · have h23 := hk23 hk
      have hqge : M / 2 ^ k ≤ q := by
        rcases hq with h | ⟨h, -⟩ <;> omega
      by_cases hEk : 0 ≤ E + (k : Int)
      · refine Or.inr (Or.inr ⟨?_, magFloor_big h23 hEk⟩)
        unfold magFloor
        rw [if_pos hEk]
        have : 1 ≤ 2 ^ (E + (k : Int)).toNat := Nat.one_le_two_pow
        calc 32768 ≤ q := by omega
          _ = q * 1 := (Nat.mul_one q).symm
          _ ≤ q * 2 ^ (E + (k : Int)).toNat := Nat.mul_le_mul_left q this
      · have hEneg : ¬ 0 ≤ E := by omega
        have hj : (-E).toNat = k + (-(E + (k : Int))).toNat := by omega
        have hT : magFloor M E = M / 2 ^ k / 2 ^ (-(E + (k : Int))).toNat := by
          unfold magFloor
          rw [if_neg hEneg, hj, Nat.pow_add, Nat.div_div_eq_div_mul]
        have ht : magFloor q (E + k) = q / 2 ^ (-(E + (k : Int))).toNat := by
          unfold magFloor
          rw [if_neg hEk]
        rw [RoundRel, hT, ht]
        rcases hq with h | ⟨h, hrem⟩
        · left; rw [h]
        · rw [h, Nat.succ_div]
          split
          · right; left
            refine ⟨rfl, by omega, ?_⟩
            intro hdvd
            apply hrem
            have h2 : 2 ^ k ∣ 2 ^ (-E).toNat := pow_dvd_pow 2 (by omega)
            exact Nat.mod_eq_zero_of_dvd (Nat.dvd_trans h2 hdvd)
          · left; rfl
    · have hk' : k = 0 := by omega
      subst hk'
      have hqM := hk0 rfl
      subst hqM
      left
      simp

theorem magFloor_zero (E : Int) : magFloor 0 E = 0 := by
  unfold magFloor
  split <;> simp

/-- The value stored for a finite gain, from the exact product. -/
theorem sample_exact (s : Int) (neg : Bool) (m : Nat) (e : Int)
    (hs : -32768 ≤ s ∧ s ≤ 32767) (he : -149 ≤ e) (hg : neg = false ∨ m = 0) :
    saturateFloat (F32.mul (F32.ofInt s) (F32.finite neg m e)) =
      saturate (exactTrunc s m e +
        (if productLifted s (F32.finite neg m e) = true then Int.sign s else 0)) ∧
    (productLifted s (F32.finite neg m e) = true → ¬ exactIsInt s m e) := by
  have hmul : F32.mul (F32.ofInt s) (F32.finite neg m e) =
      F32.round (xor (decide (s < 0)) neg) (s.natAbs * m) e := by
    rw [ofInt_small s (by omega)]
    simp only [F32.mul, zero_add]
  have hT : exactTrunc s m e = Int.sign s * (magFloor (s.natAbs * m) e : Nat) := rfl
  have hint : exactIsInt s m e → ¬ (e < 0 ∧ ¬ 2 ^ (-e).toNat ∣ s.natAbs * m) := by
    rintro (h | h) ⟨h1, h2⟩
    · omega
    · exact h2 h
  have hzero : s = 0 ∨ m = 0 → magFloor (s.natAbs * m) e = 0 := by
    intro h0
    have hM : s.natAbs * m = 0 := by
      rcases h0 with h | h
      · rw [h]; simp
      · rw [h]; simp
    rw [hM]
    exact magFloor_zero e
  have hsgn : s = 0 ∨ m = 0 ∨
      (0 < s ∧ xor (decide (s < 0)) neg = false ∧ Int.sign s = 1) ∨
      (s < 0 ∧ xor (decide (s < 0)) neg = true ∧ Int.sign s = -1) := by
    rcases lt_trichotomy s 0 with h | h | h
    · rcases hg with hg | hg
      · right; right; right
        subst hg
        exact ⟨h, by simp [h], Int.sign_eq_neg_one_of_neg h⟩
      · exact Or.inr (Or.inl hg)
    · exact Or.inl h
    · rcases hg with hg | hg
      · right; right; left
        subst hg
        refine ⟨h, ?_, Int.sign_eq_one_of_pos h⟩
        simp only [Bool.xor_false, decide_eq_false_iff_not]
        omega
      · exact Or.inr (Or.inl hg)
  rw [hT]
  rcases round_exact (xor (decide (s < 0)) neg) (s.natAbs * m) e he with ⟨hinf, hbig⟩ | ⟨q, ex, hfin, hrel⟩
  · have hp : F32.mul (F32.ofInt s) (F32.finite neg m e) = F32.inf (xor (decide (s < 0)) neg) := by
      rw [hmul, hinf]
    have hl : productLifted s (F32.finite neg m e) = false := by
      simp only [productLifted, hp]
    rw [hl, hp]
    simp only [Bool.false_eq_true, if_false, add_zero, false_implies, and_true]
    generalize magFloor (s.natAbs * m) e = T at hbig hzero
    rcases hsgn with h | h | ⟨h, hx, hsign⟩ | ⟨h, hx, hsign⟩
    · have := hzero (Or.inl h); omega
    · have := hzero (Or.inr h); omega
    · rw [hx, hsign]
      simp only [saturateFloat, Bool.false_eq_true, if_false, saturate]
      omega
    · rw [hx, hsign]
      simp only [saturateFloat, if_true, saturate]
      omega
  · have hp : F32.mul (F32.ofInt s) (F32.finite neg m e) =
        F32.finite (xor (decide (s < 0)) neg) q ex := by
      rw [hmul, hfin]
    have hl : productLifted s (F32.finite neg m e) =
        decide (magFloor q ex = magFloor (s.natAbs * m) e + 1 ∧
          magFloor (s.natAbs * m) e < 32768) := by
      simp only [productLifted, hp]
    rw [hl, hp]
    simp only [saturateFloat, decide_eq_true_eq]
    unfold RoundRel at hrel
    generalize magFloor (s.natAbs * m) e = T at hrel hzero ⊢
    generalize magFloor q ex = t at hrel ⊢
    have hrel' : t = T ∨ (t = T + 1 ∧ e < 0 ∧ ¬ 2 ^ (-e).toNat ∣ s.natAbs * m) ∨
        (32768 ≤ t ∧ 32768 ≤ T) := hrel
    have hz : s = 0 ∨ m = 0 → T = 0 ∧ t = 0 := by
      intro h0
      have hT0 := hzero h0
      refine ⟨hT0, ?_⟩
      have hM : s.natAbs * m = 0 := by
        rcases h0 with h | h
        · rw [h]; simp
        · rw [h]; simp
      rcases hrel' with h | ⟨-, -, h⟩ | ⟨-, h⟩
      · omega
      · rw [hM] at h
        exact absurd (Nat.dvd_zero _) h
      · omega
    constructor
    · by_cases hlift : t = T + 1 ∧ T < 32768
      · rw [if_pos hlift]
        rcases hsgn with h | h | ⟨h, hx, hsign⟩ | ⟨h, hx, hsign⟩
        · have := hz (Or.inl h); omega
        · have := hz (Or.inr h); omega
        · rw [hx, hsign]
          simp only [F32.signed, Bool.false_eq_true, if_false, saturate]
          omega
        · rw [hx, hsign]
          simp only [F32.signed, if_true, saturate]
          omega
      · rw [if_neg hlift]
        rcases hsgn with h | h | ⟨h, hx, hsign⟩ | ⟨h, hx, hsign⟩
        · obtain ⟨h1, h2⟩ := hz (Or.inl h)
          subst h1 h2 h
          cases (xor (decide ((0 : Int) < 0)) neg) <;> simp [F32.signed, saturate]
        · obtain ⟨h1, h2⟩ := hz (Or.inr h)
          subst h1 h2
          cases (xor (decide (s < 0)) neg) <;> simp [F32.signed, saturate]
        · rw [hx, hsign]
          simp only [F32.signed, Bool.false_eq_true, if_false, saturate]
          omega
        · rw [hx, hsign]
          simp only [F32.signed, if_true, saturate]
          omega
    · rintro ⟨h1, h2⟩ hi
      rcases hrel' with h | ⟨-, h3, h4⟩ | ⟨-, h⟩
      · omega
      · exact hint hi ⟨h3, h4⟩
      · omega

theorem sample_stored (s : Int) (g : F32) (hlo : -32768 ≤ s) (hhi : s ≤ 32767)
    (hrep : g.Representable) (hge : F32.ge g F32.zero = true) :
    ∃ r, processSample g s = some r ∧ r = saturateFloat (F32.mul (F32.ofInt s) g) ∧
      -32768 ≤ r ∧ r ≤ 32767 ∧ (0 ≤ s → 0 ≤ r) ∧ (s ≤ 0 → r ≤ 0) ∧
      (∀ neg m e, g = F32.finite neg m e →
        r = saturate (exactTrunc s m e + (if productLifted s g = true then Int.sign s else 0)) ∧
        (productLifted s g = true → ¬ exactIsInt s m e)) ∧
      (g = F32.inf false → r = saturate (Int.sign s * 32768)) := by
  refine ⟨_, clampCast_spec _, rfl, ?_⟩
  cases g with
  | finite neg m e =>
    obtain ⟨h1, h2⟩ := sample_exact s neg m e ⟨hlo, hhi⟩ hrep.2.1 (ge_zero_finite hge)
    have hT : exactTrunc s m e = Int.sign s * (magFloor (s.natAbs * m) e : Nat) := rfl
    refine ⟨?_, ?_, ?_, ?_, ?_, fun h => (by cases h)⟩
    · rw [h1]; unfold saturate; omega
    · rw [h1]; unfold saturate; omega
    · intro h0
      rw [h1, hT]
      generalize magFloor (s.natAbs * m) e = T
      rcases lt_or_eq_of_le h0 with h | h
      · rw [Int.sign_eq_one_of_pos h]
        unfold saturate
        split <;> omega
      · rw [← h]
        simp [saturate]
    · intro h0
      rw [h1, hT]
      generalize magFloor (s.natAbs * m) e = T
      rcases lt_or_eq_of_le h0 with h | h
      · rw [Int.sign_eq_neg_one_of_neg h]
        unfold saturate
        split <;> omega
      · rw [h]
        simp [saturate]
    · intro neg' m' e' heq
      cases heq
      exact ⟨h1, h2⟩
  | inf neg =>
    cases neg
    · have hmul : F32.mul (F32.ofInt s) (F32.inf false) =
          if s = 0 then F32.nan else F32.inf (decide (s < 0)) := by
        rw [ofInt_small s (by omega)]
        simp only [F32.mul, Bool.xor_false, Int.natAbs_eq_zero]
      rw [hmul]
      rcases lt_trichotomy s 0 with h | h | h
      · have hne : s ≠ 0 := by omega
        rw [if_neg hne, decide_eq_true h, Int.sign_eq_neg_one_of_neg h]
        simp only [saturateFloat, if_true, saturate]
        refine ⟨by omega, by omega, by omega, by omega, fun _ _ _ h => (by cases h), fun _ => ?_⟩
        omega
      · subst h
        simp only [if_true, saturateFloat, saturate]
        refine ⟨by omega, by omega, by omega, by omega, fun _ _ _ h => (by cases h), fun _ => ?_⟩
        simp
      · have hne : s ≠ 0 := by omega
        rw [if_neg hne, decide_eq_false (by omega), Int.sign_eq_one_of_pos h]
        simp only [saturateFloat, Bool.false_eq_true, if_false, saturate]
        refine ⟨by omega, by omega, by omega, by omega, fun _ _ _ h => (by cases h), fun _ => ?_⟩
        omega
    · exact absurd hge (by decide)
  | nan => exact absurd hge (by decide)

theorem user_process_total (g : F32) (samples : List Int) (frames : Nat) (channels : Int)
    (hne : F32.eq g F32.one = false)
    (hn : frames * toSizeT channels % 2 ^ 64 ≤ samples.length) :
    ∃ out, user_process g samples frames channels = some out ∧ out.length = samples.length ∧
      ∀ j, out[j]? = if j < frames * toSizeT channels % 2 ^ 64
        then (samples[j]?).bind (processSample g) else samples[j]? := by
  unfold user_process
  rw [hne]
  simp only [Bool.false_eq_true, if_false]
  generalize frames * toSizeT channels % 2 ^ 64 = n at hn ⊢
  obtain ⟨out, h1, h2, h3⟩ := processFrom_spec g n 0 samples (by omega) (by
    intro j _ hj
    have hjl : j < samples.length := by omega
    exact ⟨samples[j], _, List.getElem?_eq_getElem hjl, clampCast_spec _⟩)
  refine ⟨out, h1, h2, fun j => ?_⟩
  rw [h3 j]
  simp only [Nat.zero_le, true_and, Nat.zero_add]

/-- C7: gain clamp.  For every 16-bit sample `s` and every gain `g >= 0` the
loop body of `user_process` stores the `float` product `s * g` with its
fraction discarded, saturated to `[-32768, 32767]`: the value `r` stored is in
that range and has the sign of `s` or is 0 (no wrap-around).  For a finite gain
`m * 2^e`, `r` is the exact product with its fraction discarded, saturated,
but for the products that the `float` multiplication rounded up to the next
integer, which are never integers themselves: there `r` is that next integer
away from zero, saturated.  For `g = +inf` it is 32767 for `s > 0`, -32768 for
`s < 0` and 0 for `s = 0`.  With `g != 1.0`, on a buffer that holds
`frames * channels` samples, `user_process` replaces exactly the first
`frames * channels` samples by these values.  The sample 20000 with gain 2.0
becomes 32767 and -20000 becomes -32768; 10 with gain `0.7f` becomes 7. -/
theorem gain_clamp :
    (∀ (s : Int) (g : F32), -32768 ≤ s → s ≤ 32767 → g.Representable →
      F32.ge g F32.zero = true →
      ∃ r, processSample g s = some r ∧ r = saturateFloat (F32.mul (F32.ofInt s) g) ∧
        -32768 ≤ r ∧ r ≤ 32767 ∧ (0 ≤ s → 0 ≤ r) ∧ (s ≤ 0 → r ≤ 0) ∧
        (∀ neg m e, g = F32.finite neg m e →
          r = saturate (exactTrunc s m e +
            (if productLifted s g = true then Int.sign s else 0)) ∧
          (productLifted s g = true → ¬ exactIsInt s m e)) ∧
        (g = F32.inf false → r = saturate (Int.sign s * 32768))) ∧
    (∀ (g : F32) (samples : List Int) (frames : Nat) (channels : Int),
      F32.eq g F32.one = false → frames * toSizeT channels % 2 ^ 64 ≤ samples.length →
      ∃ out, user_process g samples frames channels = some out ∧
        out.length = samples.length ∧
        ∀ j, out[j]? = if j < frames * toSizeT channels % 2 ^ 64
          then (samples[j]?).bind (processSample g) else samples[j]?) ∧
    processSample (F32.finite false 1 1) 20000 = some 32767 ∧
    processSample (F32.finite false 1 1) (-20000) = some (-32768) ∧
    processSample (F32.finite false 11744051 (-24)) 10 = some 7 :=
  ⟨sample_stored, user_process_total, by decide, by decide, by decide⟩

/-- Witness of C7: the sample 10 with gain `0.7f` (the exact product is
`7 - 2^-23`, the `float` product is 7), the sample 0 with gain `+inf`, and the
buffer `[20000, -20000, 3, 7]` with gain 2.0, one frame of two channels. -/
theorem gain_clamp_witness :
    (∃ r, processSample (F32.finite false 11744051 (-24)) 10 = some r ∧
      r = saturateFloat (F32.mul (F32.ofInt 10) (F32.finite false 11744051 (-24))) ∧
      -32768 ≤ r ∧ r ≤ 32767 ∧ (0 ≤ (10 : Int) → 0 ≤ r) ∧ ((10 : Int) ≤ 0 → r ≤ 0) ∧
      (∀ neg m e, F32.finite false 11744051 (-24) = F32.finite neg m e →
        r = saturate (exactTrunc 10 m e +
          (if productLifted 10 (F32.finite false 11744051 (-24)) = true then Int.sign 10
            else 0)) ∧
        (productLifted 10 (F32.finite false 11744051 (-24)) = true → ¬ exactIsInt 10 m e)) ∧
      (F32.finite false 11744051 (-24) = F32.inf false → r = saturate (Int.sign 10 * 32768))) ∧
    exactTrunc 10 11744051 (-24) = 6 ∧
    productLifted 10 (F32.finite false 11744051 (-24)) = true ∧
    productLifted 3 (F32.finite false 1 (-1)) = false ∧
    processSample (F32.finite false 1 (-1)) 3 = some 1 ∧
    processSample (F32.inf false) 0 = some 0 ∧
    (∃ out, user_process (F32.finite false 1 1) [20000, -20000, 3, 7] 1 2 = some out ∧
      out.length = [20000, -20000, 3, 7].length ∧
      ∀ j, out[j]? = if j < 1 * toSizeT 2 % 2 ^ 64
        then (([20000, -20000, 3, 7] : List Int)[j]?).bind (processSample (F32.finite false 1 1))
        else ([20000, -20000, 3, 7] : List Int)[j]?) ∧
    user_process (F32.finite false 1 1) [20000, -20000, 3, 7] 1 2 = some [32767, -32768, 3, 7] :=
  ⟨gain_clamp.1 10 (F32.finite false 11744051 (-24)) (by decide) (by decide)
    ⟨by decide, by decide, by decide⟩ (by decide),
   by decide, by decide, by decide, by decide, by decide,
   gain_clamp.2.1 (F32.finite false 1 1) [20000, -20000, 3, 7] 1 2 (by decide) (by decide),
   by decide⟩

/-- C8: when the gain compares equal to `1.0f`, `user_process` returns at once:
for every buffer, every frame count and every channel count the buffer is
unchanged. -/
theorem gain_identity (gain : F32) (samples : List Int) (frames : Nat) (channels : Int)
    (h : F32.eq gain F32.one = true) :
    user_process gain samples frames channels = some samples := by
  unfold user_process
  rw [if_pos h]

/-- Witness of C8: gain `1.0f` and a buffer shorter than `frames * channels`. -/
theorem gain_identity_witness :
    F32.eq F32.one F32.one = true ∧ user_process F32.one [1, -2, 32767] 7 2 = some [1, -2, 32767] :=
  ⟨by decide, gain_identity F32.one [1, -2, 32767] 7 2 (by decide)⟩

/-! ## The prefill policy (C9, C10) -/

theorem wait_prefill_loop_spec (env : PrefillEnv) (target : Nat) (deadline : Int) :
    ∀ (fuel j : Nat) (b : Bool), wait_prefill_loop env target deadline fuel j = some b →
      (b = true ↔ ∃ k, j ≤ k ∧ (∀ i, j ≤ i → i < k → env.inWindow deadline i) ∧
        target ≤ (env.ring k).sizeBytes) := by
  intro fuel
  induction fuel with
  | zero => intro j b h; simp [wait_prefill_loop] at h
  | succ f ih =>
    intro j b h
    unfold wait_prefill_loop at h
    by_cases hg : (env.running j && decide (env.now (j + 1) < deadline)) = true
    · have hw : env.inWindow deadline j := by
        simpa [PrefillEnv.inWindow] using hg
      rw [if_pos hg] at h
      by_cases ht : (env.ring j).sizeBytes ≥ target
      · rw [if_pos ht] at h
        cases h
        simp only [true_iff]
        exact ⟨j, Nat.le_refl _, fun i h1 h2 => absurd h1 (by omega), ht⟩
      · rw [if_neg ht] at h
        rw [ih (j + 1) b h]
        constructor
        · rintro ⟨k, hk, hall, htk⟩
          refine ⟨k, by omega, fun i h1 h2 => ?_, htk⟩
          by_cases hij : i = j
          · rw [hij]; exact hw
          · exact hall i (by omega) h2
        · rintro ⟨k, hk, hall, htk⟩
          have hne : k ≠ j := by
            rintro rfl
            exact ht htk
          exact ⟨k, by omega, fun i h1 h2 => hall i (by omega) h2, htk⟩
    · rw [if_neg hg] at h
      have hw : ¬ env.inWindow deadline j := by
        simpa [PrefillEnv.inWindow] using hg
      cases h
      simp only [decide_eq_true_eq]
      constructor
      · intro ht
        exact ⟨j, Nat.le_refl _, fun i h1 h2 => absurd h1 (by omega), ht⟩
      · rintro ⟨k, hk, hall, htk⟩
        by_cases hkj : k = j
        · rw [← hkj]; exact htk
        · exact absurd (hall j (Nat.le_refl _) (by omega)) hw

theorem wait_prefill_loop_total (env : PrefillEnv) (target : Nat) (deadline : Int)
    (hclock : env.ClockAdvances) :
    ∀ (fuel j : Nat), deadline - env.now (j + 1) ≤ 5000000 * (fuel : Int) →
      ∃ b, wait_prefill_loop env target deadline (fuel + 1) j = some b := by
  intro fuel
  induction fuel with
  | zero =>
    intro j h
    unfold wait_prefill_loop
    have : ¬ env.now (j + 1) < deadline := by
      simp only [Nat.cast_zero, mul_zero] at h
      omega
    simp [this]
  | succ f ih =>
    intro j h
    unfold wait_prefill_loop
    split
    · split
      · exact ⟨_, rfl⟩
      · apply ih
        have := hclock.2 (j + 1) (by omega)
        push_cast at h
        omega
    · exact ⟨_, rfl⟩

/-- C9 as stated is false: in `lateFillEnv` the call returns true although no
occupancy value polled inside the timeout window reached the target (the target
is met only at the final read, 12 ms after the start, with a timeout of 10 ms). -/
theorem wait_prefill_true_after_deadline :
    ¬ (wait_prefill lateFillEnv 100 10 10 = some true ↔
        lateFillEnv.ReachedInWindow 100 (prefillDeadline lateFillEnv 10)) := by
  intro h
  have ht : wait_prefill lateFillEnv 100 10 10 = some true := by decide
  obtain ⟨j, hall, hj⟩ := h.1 ht
  by_cases hj2 : j < 2
  · have h0 : (lateFillEnv.ring j).sizeBytes = 0 := by
      simp only [lateFillEnv, if_pos hj2]
      rfl
    rw [h0] at hj
    exact absurd hj (by decide)
  · have := (hall 2 (by omega)).2
    exact absurd this (by decide)

/-- C9 (amended): `wait_prefill` returns true exactly when some occupancy value
it reads has reached `target_bytes`, where the values it reads are the polls
made while the loop condition holds (flag set, clock before the deadline) and
the one read made after the first loop condition that fails (the deadline has
passed or the flag is cleared by then).  When consecutive clock readings are
at least the 5 ms sleep apart, the call returns after at most
`timeout_ms / 5 + 2` evaluations of the loop condition. -/
theorem wait_prefill_result (env : PrefillEnv) (target_bytes : Nat) (timeout_ms : Int) :
    (∀ (fuel : Nat) (b : Bool), wait_prefill env target_bytes timeout_ms fuel = some b →
      (b = true ↔ env.ReachedAtRead target_bytes (prefillDeadline env timeout_ms))) ∧
    (env.ClockAdvances → ∀ fuel, timeout_ms.toNat / 5 + 2 ≤ fuel →
      ∃ b, wait_prefill env target_bytes timeout_ms fuel = some b) := by
  constructor
  · intro fuel b h
    rw [wait_prefill_loop_spec env target_bytes _ fuel 0 b h]
    constructor
    · rintro ⟨k, -, hall, hk⟩
      exact ⟨k, fun i hi => hall i (Nat.zero_le _) hi, hk⟩
    · rintro ⟨k, hall, hk⟩
      exact ⟨k, Nat.zero_le _, fun i _ hi => hall i hi, hk⟩
  · intro hclock fuel hfuel
    obtain ⟨f, rfl⟩ : ∃ f, fuel = f + 1 := ⟨fuel - 1, by omega⟩
    apply wait_prefill_loop_total env target_bytes _ hclock
    have h0 := hclock.1
    unfold prefillDeadline
    rw [Nat.zero_add]
    have : timeout_ms ≤ (timeout_ms.toNat : Int) := Int.self_le_toNat timeout_ms
    have h5 : (timeout_ms.toNat : Int) < 5 * ((timeout_ms.toNat / 5 : Nat) : Int) + 5 := by
      have := Nat.lt_div_mul_add (a := timeout_ms.toNat) (b := 5) (by decide)
      omega
    have hf : ((timeout_ms.toNat / 5 : Nat) : Int) + 1 ≤ (f : Int) := by
      omega
    omega

theorem lateFillEnv_clock : lateFillEnv.ClockAdvances := by
  refine ⟨by decide, fun k hk => ?_⟩
  simp only [lateFillEnv]
  rw [if_neg (by omega), if_neg (by omega)]
  push_cast
  omega

/-- Witness of C9: in `lateFillEnv` the call returns true with fuel 10, the
target is met at a read the call makes (its final one), and the clock of
`lateFillEnv` advances by 6 ms per iteration, so the call returns. -/
theorem wait_prefill_result_witness :
    wait_prefill lateFillEnv 100 10 10 = some true ∧
    (true = true ↔ lateFillEnv.ReachedAtRead 100 (prefillDeadline lateFillEnv 10)) ∧
    ∃ b, wait_prefill lateFillEnv 100 10 4 = some b :=
  ⟨by decide, (wait_prefill_result lateFillEnv 100 10).1 10 true (by decide),
   (wait_prefill_result lateFillEnv 100 10).2 lateFillEnv_clock 4 (by decide)⟩

theorem toSizeT_of_lt {x : Int} (h0 : 0 ≤ x) (h : x < 2 ^ 64) : toSizeT x = x.toNat := by
  unfold toSizeT
  rw [Int.emod_eq_of_lt h0 h]

theorem bytesForMs_eq {rate ch : Int} (ms : Int) (hr : 0 ≤ rate) (hc : 1 ≤ ch) (hms : 0 ≤ ms)
    (hms' : ms ≤ 500) (h : rate * (2 * ch) * 500 < 2 ^ 64) (hch : 2 * ch < 2 ^ 31) :
    bytesForMs rate ch ms = rate.toNat * (2 * ch.toNat) * ms.toNat / 1000 := by
  obtain ⟨R, rfl⟩ := Int.eq_ofNat_of_zero_le hr
  obtain ⟨C, rfl⟩ := Int.eq_ofNat_of_zero_le (by omega : 0 ≤ ch)
  obtain ⟨M, rfl⟩ := Int.eq_ofNat_of_zero_le hms
  have hC : 1 ≤ C := by exact_mod_cast hc
  have hM : M ≤ 500 := by exact_mod_cast hms'
  have hbig : R * (2 * C) * 500 < 2 ^ 64 := by exact_mod_cast h
  have hCs : 2 * C < 2 ^ 31 := by exact_mod_cast hch
  have hRC : R * (2 * C) < 2 ^ 64 := by nlinarith
  have hRCM : R * (2 * C) * M < 2 ^ 64 := by nlinarith
  have hR : R < 2 ^ 64 := by nlinarith
  unfold bytesForMs frame_bytes
  rw [toSizeT_of_lt (by positivity) (by exact_mod_cast hR),
    toSizeT_of_lt (by positivity) (by exact_mod_cast (by omega : 2 * C < 2 ^ 64)),
    toSizeT_of_lt (by positivity) (by exact_mod_cast (by omega : M < 2 ^ 64)),
    toSizeT_of_lt (by decide) (by decide)]
  have e2 : ((2 : Int) * (C : Int)).toNat = 2 * C := by
    rw [show (2 : Int) * (C : Int) = ((2 * C : Nat) : Int) by push_cast; ring]
    exact Int.toNat_ofNat _
  simp only [Int.toNat_ofNat, e2]
  rw [Nat.mod_eq_of_lt hRC, Nat.mod_eq_of_lt hRCM]
  rfl

/-- C10: for a sample rate `rate ≥ 0` and a channel count `ch ≥ 1` for which
`2 * ch` fits an `int` and `rate * 2 * ch * 500` fits `size_t`, the ring capacity
is `rate * (2 * ch) * 500 / 1000`, and on a ring of that capacity both the
startup prefill target and the refill target equal
`min (capacity / 2) (rate * (2 * ch) * 150 / 1000)`; neither exceeds half of the
capacity. -/
theorem prefill_target_bound (rate ch : Int) (ring : Ring) (hr : 0 ≤ rate) (hc : 1 ≤ ch)
    (hch : 2 * ch < 2 ^ 31) (h : rate * (2 * ch) * 500 < 2 ^ 64)
    (hring : ring.cap_ = ring_capacity_bytes rate ch) :
    ring_capacity_bytes rate ch = rate.toNat * (2 * ch.toNat) * 500 / 1000 ∧
    prefill_target ring rate ch =
      min (ring_capacity_bytes rate ch / 2) (rate.toNat * (2 * ch.toNat) * 150 / 1000) ∧
    refill_target ring rate ch =
      min (ring_capacity_bytes rate ch / 2) (rate.toNat * (2 * ch.toNat) * 150 / 1000) ∧
    prefill_target ring rate ch ≤ ring.capacity / 2 ∧
    refill_target ring rate ch ≤ ring.capacity / 2 := by
  have h150 := bytesForMs_eq 150 hr hc (by decide) (by decide) h hch
  have h500 := bytesForMs_eq 500 hr hc (by decide) (by decide) h hch
  have e150 : (150 : Int).toNat = 150 := rfl
  have e500 : (500 : Int).toNat = 500 := rfl
  rw [e150] at h150
  rw [e500] at h500
  refine ⟨h500, ?_, ?_, ?_, ?_⟩
  · unfold prefill_target Ring.capacity
    rw [hring, h150]
  · unfold refill_target Ring.capacity
    rw [hring, h150]
  · exact Nat.min_le_left _ _
  · exact Nat.min_le_left _ _

/-- Witness of C10: 44100 Hz stereo; the capacity is 88200 bytes, both targets
are 26460 bytes. -/
theorem prefill_target_bound_witness :
    ring_capacity_bytes 44100 2 = 88200 ∧
    prefill_target (Ring.new 88200) 44100 2 = 26460 ∧
    prefill_target (Ring.new 88200) 44100 2 ≤ (Ring.new 88200).capacity / 2 :=
  ⟨by decide, by decide,
   (prefill_target_bound 44100 2 (Ring.new 88200) (by decide) (by decide) (by decide)
      (by decide) (by decide)).2.2.2.1⟩

/-! ## The capture worker (C11) -/

theorem step_close (s : Sys) : s.step Ev.close = s := by
  unfold Sys.step
  split <;> rfl

theorem captureIter_failed {ok : Bool} {frames_read : Int} (h : ok = false ∨ frames_read ≤ 0)
    (g_running recovered : Bool) (frame_bytes : Int) :
    captureIter g_running ok frames_read recovered frame_bytes = CaptureNext.exitLoop ∨
    captureIter g_running ok frames_read recovered frame_bytes = CaptureNext.again := by
  unfold captureIter
  have hc : (!ok || decide (frames_read ≤ 0)) = true := by
    rcases h with h | h
    · simp [h]
    · simp [h]
  rw [hc]
  cases g_running <;> cases recovered <;> simp

theorem step_no_wcall_inv {s : Sys} (h : s.Inv) {e : Ev} (he : ∀ d n, e ≠ Ev.wcall d n)
    (hwf : e.wf) (base : List Nat)
    (hacc : s.accepted = base ++ s.w.data.take s.w.written) :
    (s.step e).accepted = base ++ (s.step e).w.data.take (s.step e).w.written ∧
    (s.step e).w.data = s.w.data ∧ (s.step e).w.n = s.w.n := by
  unfold Sys.step
  rw [if_neg (by simp [h.nofault])]
  cases e with
  | stop => exact ⟨hacc, rfl, rfl⟩
  | close => exact ⟨hacc, rfl, rfl⟩
  | wcall d n => exact absurd rfl (he d n)
  | rcall out n =>
    dsimp only
    split
    · exact ⟨hacc, rfl, rfl⟩
    · exact ⟨hacc, rfl, rfl⟩
  | wstep =>
    dsimp only
    unfold Sys.writeBlockingStep
    split
    · exact ⟨hacc, rfl, rfl⟩
    · split <;> exact ⟨hacc, rfl, rfl⟩
    · split
      · exact ⟨hacc, rfl, rfl⟩
      · split <;> exact ⟨hacc, rfl, rfl⟩
    · split
      · exact ⟨hacc, rfl, rfl⟩
      · obtain ⟨r', hw, -⟩ := writeBlockingCopy_spec h.ring s.w.data h.wle h.wbuf
        rw [hw]
        dsimp only
        refine ⟨?_, rfl, rfl⟩
        have hcan : s.w.written + min (s.w.n - s.w.written) (s.ring.cap_ - s.ring.size_)
            - s.w.written = min (s.w.n - s.w.written) (s.ring.cap_ - s.ring.size_) := by omega
        rw [hcan, hacc, List.take_add, List.append_assoc]
  | rstep =>
    dsimp only
    unfold Sys.readBlockingStep
    split
    · exact ⟨hacc, rfl, rfl⟩
    · split <;> exact ⟨hacc, rfl, rfl⟩
    · split
      · exact ⟨hacc, rfl, rfl⟩
      · split <;> exact ⟨hacc, rfl, rfl⟩
    · split
      · exact ⟨hacc, rfl, rfl⟩
      · split <;> exact ⟨hacc, rfl, rfl⟩

theorem run_no_wcall_inv (base : List Nat) {evs : List Ev} : ∀ {s : Sys}, s.Inv →
    (∀ e ∈ evs, e.wf ∧ e.isWcall = false) →
    s.accepted = base ++ s.w.data.take s.w.written →
    (s.run evs).accepted = base ++ (s.run evs).w.data.take (s.run evs).w.written ∧
    (s.run evs).w.data = s.w.data ∧ (s.run evs).w.n = s.w.n ∧ (s.run evs).Inv := by
  induction evs with
  | nil => intro s h _ hacc; exact ⟨hacc, rfl, rfl, h⟩
  | cons e es ih =>
    intro s h hev hacc
    obtain ⟨hwf, hno⟩ := hev e (List.mem_cons_self _ _)
    have hno' : ∀ d n, e ≠ Ev.wcall d n := by
      intro d n heq
      rw [heq] at hno
      exact Bool.noConfusion hno
    obtain ⟨h1, h2, h3⟩ := step_no_wcall_inv h hno' hwf base hacc
    obtain ⟨a, b, c, d⟩ := ih (step_inv h hwf)
      (fun e' he' => hev e' (List.mem_cons_of_mem _ he')) h1
    exact ⟨a, b.trans h2, c.trans h3, d⟩

theorem bytes_no_wrap {frames_read ch : Int} (hf : 0 < frames_read) (hf' : frames_read < 2 ^ 31)
    (hc : 1 ≤ ch) (hc' : 2 * ch < 2 ^ 31) :
    toSizeT frames_read * toSizeT (frame_bytes ch) % 2 ^ 64 =
      frames_read.toNat * (2 * ch.toNat) := by
  obtain ⟨F, rfl⟩ := Int.eq_ofNat_of_zero_le (by omega : 0 ≤ frames_read)
  obtain ⟨C, rfl⟩ := Int.eq_ofNat_of_zero_le (by omega : 0 ≤ ch)
  have hF : F < 2 ^ 31 := by exact_mod_cast hf'
  have hC : 2 * C < 2 ^ 31 := by exact_mod_cast hc'
  unfold frame_bytes
  rw [toSizeT_of_lt (by positivity) (by exact_mod_cast (by omega : F < 2 ^ 64)),
    toSizeT_of_lt (by positivity) (by exact_mod_cast (by omega : 2 * C < 2 ^ 64))]
  have e2 : ((2 : Int) * (C : Int)).toNat = 2 * C := by
    rw [show (2 : Int) * (C : Int) = ((2 * C : Nat) : Int) by push_cast; ring]
    exact Int.toNat_ofNat _
  simp only [Int.toNat_ofNat, e2]
  apply Nat.mod_eq_of_lt
  calc F * (2 * C) < 2 ^ 31 * 2 ^ 31 := Nat.mul_lt_mul'' hF hC
    _ < 2 ^ 64 := by decide

/-- C11: a failed capture read enqueues nothing.  In an iteration of the
capture loop in which `ReadFrame` returned false or stored `frames_read <= 0`,
the capture thread leaves the whole shared state as it was, the ring (occupancy,
read offset, stored bytes) included.  In an iteration with `ok` and
`frames_read > 0` the thread calls `writeBlocking(buf.data(), bytes)` with
`bytes = frames_read * frame_bytes` (no wrap for `int` values and `ch ≥ 1`);
entering the call does not touch the ring, and the bytes the ring accepts from
this call are, at any later moment of the call, the first `written ≤ bytes`
bytes of the capture buffer. -/
theorem capture_failed_read_enqueues_nothing :
    (∀ (s : Sys) (g_running ok recovered : Bool) (frames_read frame_bytes : Int)
      (buf : List Nat), ok = false ∨ frames_read ≤ 0 →
      s.run (captureEvents buf (captureIter g_running ok frames_read recovered frame_bytes))
        = s) ∧
    (∀ (recovered : Bool) (frames_read ch : Int), 0 < frames_read → frames_read < 2 ^ 31 →
      1 ≤ ch → 2 * ch < 2 ^ 31 →
      captureIter true true frames_read recovered (frame_bytes ch) =
        CaptureNext.write (frames_read.toNat * (2 * ch.toNat))) ∧
    (∀ (s : Sys) (buf : List Nat) (bytes : Nat) (evs : List Ev), s.Inv → s.w.pc = PC.ret →
      bytes ≤ buf.length → (∀ e ∈ evs, e.wf ∧ e.isWcall = false) →
      (s.run (captureEvents buf (CaptureNext.write bytes))).ring = s.ring ∧
      (s.run (captureEvents buf (CaptureNext.write bytes))).w =
        { data := buf, n := bytes, written := 0, pc := PC.guard } ∧
      ((s.run (captureEvents buf (CaptureNext.write bytes))).run evs).accepted =
        s.accepted ++ buf.take
          ((s.run (captureEvents buf (CaptureNext.write bytes))).run evs).w.written ∧
      ((s.run (captureEvents buf (CaptureNext.write bytes))).run evs).w.written ≤ bytes) := by
  refine ⟨?_, ?_, ?_⟩
  · intro s g ok recovered frames_read fb buf h
    rcases captureIter_failed h g recovered fb with h1 | h1
    · rw [h1]
      exact step_close s
    · rw [h1]
      rfl
  · intro recovered frames_read ch hf hf' hc hc'
    unfold captureIter
    rw [bytes_no_wrap hf hf' hc hc']
    have hnot : (!true || decide (frames_read ≤ 0)) = false := by
      simp only [Bool.not_true, Bool.false_or, decide_eq_false_iff_not]
      omega
    rw [hnot]
    rfl
  · intro s buf bytes evs h hpc hlen hev
    have hstep : s.run (captureEvents buf (CaptureNext.write bytes)) =
        { s with w := { data := buf, n := bytes, written := 0, pc := PC.guard } } := by
      simp only [captureEvents, Sys.run, List.foldl_cons, List.foldl_nil, Sys.step, h.nofault,
        Bool.false_eq_true, if_false, hpc, if_true]
    have hinv : (s.run (captureEvents buf (CaptureNext.write bytes))).Inv :=
      run_inv h (by
        intro e he
        simp only [captureEvents, List.mem_singleton] at he
        rw [he]
        exact hlen)
    rw [hstep] at hinv ⊢
    obtain ⟨a, b, c, d⟩ := run_no_wcall_inv s.accepted hinv hev
      (by simp)
    refine ⟨rfl, rfl, ?_, ?_⟩
    · rw [a, b]
    · have := d.wle
      rw [c] at this
      exact this

/-- Witness of C11: a failed read with a successful recovery on a fresh ring,
and a read of 2 stereo frames whose 8 bytes are written into a ring of
capacity 8. -/
theorem capture_failed_read_enqueues_nothing_witness :
    (Sys.init 8).run (captureEvents [1, 2, 3, 4, 5, 6, 7, 8]
      (captureIter true false 0 true (frame_bytes 2))) = Sys.init 8 ∧
    captureIter true true 2 true (frame_bytes 2) = CaptureNext.write ((2 : Int).toNat * (2 * (2 : Int).toNat)) ∧
    (((Sys.init 8).run (captureEvents [1, 2, 3, 4, 5, 6, 7, 8] (CaptureNext.write 8))).run
      [Ev.wstep, Ev.wstep, Ev.wstep]).accepted =
      (Sys.init 8).accepted ++ List.take
        (((Sys.init 8).run (captureEvents [1, 2, 3, 4, 5, 6, 7, 8] (CaptureNext.write 8))).run
          [Ev.wstep, Ev.wstep, Ev.wstep]).w.written [1, 2, 3, 4, 5, 6, 7, 8] :=
  ⟨capture_failed_read_enqueues_nothing.1 (Sys.init 8) true false true 0 (frame_bytes 2)
      [1, 2, 3, 4, 5, 6, 7, 8] (Or.inl rfl),
   capture_failed_read_enqueues_nothing.2.1 true 2 2 (by decide) (by decide) (by decide)
      (by decide),
   (capture_failed_read_enqueues_nothing.2.2 (Sys.init 8) [1, 2, 3, 4, 5, 6, 7, 8] 8
      [Ev.wstep, Ev.wstep, Ev.wstep] (init_inv (by decide)) rfl (by decide) (by decide)).2.2.1⟩

/-! ## The format guard of the device wrappers (C12) -/

/-- C12: the sample format cannot be changed while a device is open.  For both
classes, `SetFormat` on an object whose handle is non-null returns false and
leaves the object, hence `format_`, `GetBytesPerSample()` and `GetFormat()`,
unchanged; on an object whose handle is null it returns true, `format_` is the
argument afterwards and no other member changes. -/
theorem setFormat_guard :
    (∀ (c : AlsaCapture) (format : snd_pcm_format_t),
      (c.handle_ ≠ none →
        (c.SetFormat format).1 = false ∧ (c.SetFormat format).2 = c ∧
        (c.SetFormat format).2.format_ = c.format_ ∧
        (c.SetFormat format).2.GetBytesPerSample = c.GetBytesPerSample) ∧
      (c.handle_ = none →
        (c.SetFormat format).1 = true ∧ (c.SetFormat format).2.format_ = format ∧
        (c.SetFormat format).2 = { c with format_ := format })) ∧
    (∀ (p : AlsaPlayback) (format : snd_pcm_format_t),
      (p.handle_ ≠ none →
        (p.SetFormat format).1 = false ∧ (p.SetFormat format).2 = p ∧
        (p.SetFormat format).2.GetFormat = p.GetFormat ∧
        (p.SetFormat format).2.GetBytesPerSample = p.GetBytesPerSample) ∧
      (p.handle_ = none →
        (p.SetFormat format).1 = true ∧ (p.SetFormat format).2.GetFormat = format ∧
        (p.SetFormat format).2 = { p with format_ := format })) := by
  constructor
  · intro c format
    constructor
    · intro h
      have hs : c.handle_.isSome = true := Option.isSome_iff_ne_none.2 h
      unfold AlsaCapture.SetFormat
      rw [hs]
      exact ⟨rfl, rfl, rfl, rfl⟩
    · intro h
      have hs : c.handle_.isSome = false := by rw [h]; rfl
      unfold AlsaCapture.SetFormat
      rw [hs]
      exact ⟨rfl, rfl, rfl⟩
  · intro p format
    constructor
    · intro h
      have hs : p.handle_.isSome = true := Option.isSome_iff_ne_none.2 h
      unfold AlsaPlayback.SetFormat
      rw [hs]
      exact ⟨rfl, rfl, rfl, rfl⟩
    · intro h
      have hs : p.handle_.isSome = false := by rw [h]; rfl
      unfold AlsaPlayback.SetFormat
      rw [hs]
      exact ⟨rfl, rfl, rfl⟩

/-- Witness of C12: an open capture device keeps `S16_LE` when `FLOAT_LE` is
requested; a closed playback device takes it. -/
theorem setFormat_guard_witness :
    (AlsaCapture.SetFormat
      { device_ := "hw:0", sample_rate_ := 44100, channels_ := 2, handle_ := some 1,
        buffer_size_ := 4410, period_size_ := 1102,
        format_ := snd_pcm_format_t.SND_PCM_FORMAT_S16_LE }
      snd_pcm_format_t.SND_PCM_FORMAT_FLOAT_LE).1 = false ∧
    (AlsaPlayback.SetFormat
      { device_ := "hw:0", sample_rate_ := 44100, channels_ := 2, handle_ := none,
        format_ := snd_pcm_format_t.SND_PCM_FORMAT_S16_LE }
      snd_pcm_format_t.SND_PCM_FORMAT_FLOAT_LE).2.GetFormat =
        snd_pcm_format_t.SND_PCM_FORMAT_FLOAT_LE :=
  ⟨((setFormat_guard.1 _ _).1 (by decide)).1, ((setFormat_guard.2 _ _).2 rfl).2.1⟩

/-! ## Recovery in the playback worker (C13, C14) -/

/-- C13 as stated is false: the device write fails with the error code -86
(`-ESTRPIPE`), and the argument given to `Recover` is `-EPIPE` = -32, not -86. -/
theorem playback_recover_not_device_error :
    (openPlayback.WriteFrame (-86) 0).1 = false ∧
    playbackLoop openPlayback id suspendedWrite 0 =
      [PlaybackAct.readBlocking [1, 2, 3, 4], PlaybackAct.WriteFrame [1, 2, 3, 4],
       PlaybackAct.Recover (-32), PlaybackAct.wait_prefill] ∧
    PlaybackAct.Recover (-86) ∉ playbackLoop openPlayback id suspendedWrite 0 := by
  decide

theorem recover_arg (p : AlsaPlayback) (process : List Nat → List Nat) :
    ∀ (steps : List PlaybackStep) (frames_written : Int) (e : Int),
      PlaybackAct.Recover e ∈ playbackLoop p process steps frames_written → e = -EPIPE := by
  intro steps
  induction steps with
  | nil => intro fw e h; simp [playbackLoop] at h
  | cons i rest ih =>
    intro fw e h
    unfold playbackLoop at h
    split at h
    · simp at h
    · split at h
      · simp at h
      · simp only [List.mem_cons, reduceCtorEq, false_or] at h
        split at h
        · simp only [List.mem_cons, PlaybackAct.Recover.injEq] at h
          rcases h with h | h
          · exact h
          · split at h
            · simp at h
            · simp only [List.mem_cons, reduceCtorEq, false_or] at h
              exact ih _ e h
        · exact ih _ e h

theorem loop_on_failure (p : AlsaPlayback) (process : List Nat → List Nat) (i : PlaybackStep)
    (rest : List PlaybackStep) (frames_written : Int) (hrun : i.g_running = true)
    (hgot : i.block.length ≠ 0)
    (hfail : (p.WriteFrame i.writei frames_written).1 = false ∨
      (p.WriteFrame i.writei frames_written).2 ≤ 0) :
    playbackLoop p process (i :: rest) frames_written =
      PlaybackAct.readBlocking i.block :: PlaybackAct.WriteFrame (process i.block) ::
        PlaybackAct.Recover (-EPIPE) ::
          (if p.Recover i.recover (-EPIPE) = true then
            PlaybackAct.wait_prefill ::
              playbackLoop p process rest (p.WriteFrame i.writei frames_written).2
          else []) := by
  have hc : (!(p.WriteFrame i.writei frames_written).1 ||
      decide ((p.WriteFrame i.writei frames_written).2 ≤ 0)) = true := by
    rcases hfail with h | h
    · simp [h]
    · simp [h]
  rw [playbackLoop]
  simp only [hrun, Bool.not_true, Bool.false_eq_true, if_false, hgot, hc, if_true]
  cases p.Recover i.recover (-EPIPE) <;> simp

theorem writeFrame_error (p : AlsaPlayback) (e frames_written : Int) (he : e < 0) :
    (p.WriteFrame e frames_written).1 = false := by
  unfold AlsaPlayback.WriteFrame
  rw [if_pos he]
  split <;> rfl

/-- C13 (amended): whatever error the device write reported, the argument the
playback worker gives to `AlsaPlayback::Recover` is the constant `-EPIPE`:
every `Recover` call of every run carries `-EPIPE`, and an iteration whose
`WriteFrame` fails (it returned false, as it does for every device error
`e < 0`, or `frames_written <= 0`) calls `Recover(-EPIPE)` right after the
write. -/
theorem playback_recover_argument (p : AlsaPlayback) (process : List Nat → List Nat) :
    (∀ (steps : List PlaybackStep) (frames_written : Int) (e : Int),
      PlaybackAct.Recover e ∈ playbackLoop p process steps frames_written → e = -EPIPE) ∧
    (∀ (i : PlaybackStep) (rest : List PlaybackStep) (frames_written : Int),
      i.g_running = true → i.block.length ≠ 0 → i.writei < 0 →
      ∃ tail, playbackLoop p process (i :: rest) frames_written =
        PlaybackAct.readBlocking i.block :: PlaybackAct.WriteFrame (process i.block) ::
          PlaybackAct.Recover (-EPIPE) :: tail) :=
  ⟨recover_arg p process, fun i rest fw hrun hgot he =>
    ⟨_, loop_on_failure p process i rest fw hrun hgot (Or.inl (writeFrame_error p _ _ he))⟩⟩

/-- Witness of C13: the run `suspendedWrite`. -/
theorem playback_recover_argument_witness :
    (-32 : Int) = -EPIPE ∧
    ∃ tail, playbackLoop openPlayback id suspendedWrite 0 =
      PlaybackAct.readBlocking [1, 2, 3, 4] :: PlaybackAct.WriteFrame (id [1, 2, 3, 4]) ::
        PlaybackAct.Recover (-EPIPE) :: tail :=
  ⟨(playback_recover_argument openPlayback id).1 suspendedWrite 0 (-32) (by decide),
   (playback_recover_argument openPlayback id).2
     { g_running := true, block := [1, 2, 3, 4], writei := -86, recover := fun _ => 0 } [] 0
     rfl (by decide) (by decide)⟩



/-- C14 as stated is false: the write of the block `[1, 1, 1, 1]` fails and the
recovery succeeds; the next call of the worker after `wait_prefill` is
`readBlocking`, which takes the block `[2, 2, 2, 2]` from the ring, and the
block `[1, 1, 1, 1]` is submitted to the device once only. -/
theorem playback_failed_block_not_resubmitted :
    (openPlayback.WriteFrame (-32) 0).1 = false ∧
    openPlayback.Recover (fun _ => 0) (-EPIPE) = true ∧
    playbackLoop openPlayback id failThenSucceed 0 =
      [PlaybackAct.readBlocking [1, 1, 1, 1], PlaybackAct.WriteFrame [1, 1, 1, 1],
       PlaybackAct.Recover (-32), PlaybackAct.wait_prefill,
       PlaybackAct.readBlocking [2, 2, 2, 2], PlaybackAct.WriteFrame [2, 2, 2, 2]] ∧
    submitted (playbackLoop openPlayback id failThenSucceed 0) =
      [[1, 1, 1, 1], [2, 2, 2, 2]] := by
  decide

theorem submitted_eq_taken (p : AlsaPlayback) (process : List Nat → List Nat) :
    ∀ (steps : List PlaybackStep) (frames_written : Int),
      submitted (playbackLoop p process steps frames_written) =
        (taken (playbackLoop p process steps frames_written)).map process := by
  intro steps
  induction steps with
  | nil => intro fw; rfl
  | cons i rest ih =>
    intro fw
    unfold playbackLoop
    split
    · rfl
    · split
      · rename_i h0
        simp [submitted, taken, h0]
      · rename_i h0
        split
        · split
          · simp [submitted, taken, h0]
          · simp [submitted, taken, h0, ih]
        · simp [submitted, taken, h0, ih]

/-- C14 (amended): a block whose write failed is not submitted again.  In
every run of the playback worker the blocks submitted to the device are the
non-empty blocks taken from the ring, each processed and submitted exactly
once, in order.  When a write fails (`WriteFrame` returned false or
`frames_written <= 0`) and `Recover(-EPIPE)` succeeds, the worker calls
`wait_prefill` and goes on with the next iteration, whose first call is
`readBlocking`; when `Recover(-EPIPE)` fails the worker stops. -/
theorem playback_failure_handling (p : AlsaPlayback) (process : List Nat → List Nat) :
    (∀ (steps : List PlaybackStep) (frames_written : Int),
      submitted (playbackLoop p process steps frames_written) =
        (taken (playbackLoop p process steps frames_written)).map process) ∧
    (∀ (i : PlaybackStep) (rest : List PlaybackStep) (frames_written : Int),
      i.g_running = true → i.block.length ≠ 0 →
      ((p.WriteFrame i.writei frames_written).1 = false ∨
        (p.WriteFrame i.writei frames_written).2 ≤ 0) →
      (p.Recover i.recover (-EPIPE) = true →
        playbackLoop p process (i :: rest) frames_written =
          PlaybackAct.readBlocking i.block :: PlaybackAct.WriteFrame (process i.block) ::
            PlaybackAct.Recover (-EPIPE) :: PlaybackAct.wait_prefill ::
              playbackLoop p process rest (p.WriteFrame i.writei frames_written).2) ∧
      (p.Recover i.recover (-EPIPE) = false →
        playbackLoop p process (i :: rest) frames_written =
          [PlaybackAct.readBlocking i.block, PlaybackAct.WriteFrame (process i.block),
           PlaybackAct.Recover (-EPIPE)])) := by
  refine ⟨submitted_eq_taken p process, ?_⟩
  intro i rest fw hrun hgot hfail
  constructor
  · intro hrec
    rw [loop_on_failure p process i rest fw hrun hgot hfail, if_pos hrec]
  · intro hrec
    rw [loop_on_failure p process i rest fw hrun hgot hfail, hrec]
    rfl

/-- Witness of C14: the run `failThenSucceed`, and the same first iteration
with a recovery that fails. -/
theorem playback_failure_handling_witness :
    playbackLoop openPlayback id
        ({ g_running := true, block := [1, 1, 1, 1], writei := -32, recover := fun _ => 0 } ::
          failThenSucceed.tail) 0 =
      PlaybackAct.readBlocking [1, 1, 1, 1] :: PlaybackAct.WriteFrame (id [1, 1, 1, 1]) ::
        PlaybackAct.Recover (-EPIPE) :: PlaybackAct.wait_prefill ::
          playbackLoop openPlayback id failThenSucceed.tail (openPlayback.WriteFrame (-32) 0).2 ∧
    playbackLoop openPlayback id
        [{ g_running := true, block := [1, 1, 1, 1], writei := -32, recover := fun _ => -1 }] 0 =
      [PlaybackAct.readBlocking [1, 1, 1, 1], PlaybackAct.WriteFrame (id [1, 1, 1, 1]),
       PlaybackAct.Recover (-EPIPE)] :=
  ⟨((playback_failure_handling openPlayback id).2
      { g_running := true, block := [1, 1, 1, 1], writei := -32, recover := fun _ => 0 }
      failThenSucceed.tail 0 rfl (by decide) (Or.inl (by decide))).1 (by decide),
   ((playback_failure_handling openPlayback id).2
      { g_running := true, block := [1, 1, 1, 1], writei := -32, recover := fun _ => -1 }
      [] 0 rfl (by decide) (Or.inl (by decide))).2 (by decide)⟩

/-! ## In-place processing of a block (C15) -/

theorem processFrom_cases (gain : F32) : ∀ (k i : Nat) (samples : List Int),
    i + k ≤ samples.length →
    (∀ out, processFrom gain k i samples = some out → out.length = samples.length ∧
      ∀ j, out[j]? = if i ≤ j ∧ j < i + k then (samples[j]?).bind (processSample gain)
        else samples[j]?) ∧
    (processFrom gain k i samples = none →
      ∃ j s, i ≤ j ∧ j < i + k ∧ samples[j]? = some s ∧ processSample gain s = none) := by
  intro k
  induction k with
  | zero =>
    intro i samples _
    refine ⟨fun out ho => ?_, fun hn => by simp [processFrom] at hn⟩
    simp only [processFrom, Option.some.injEq] at ho
    subst ho
    refine ⟨rfl, fun j => ?_⟩
    rw [if_neg (by omega)]
  | succ k ih =>
    intro i samples hlen
    have hil : i < samples.length := by omega
    have hs : samples[i]? = some samples[i] := List.getElem?_eq_getElem hil
    cases hr : processSample gain samples[i] with
    | none =>
      refine ⟨fun out ho => ?_, fun _ => ⟨i, samples[i], Nat.le_refl _, by omega, hs, hr⟩⟩
      unfold processFrom at ho
      simp only [hs, hr, Option.bind_eq_bind, Option.some_bind, Option.none_bind] at ho
      cases ho
    | some r =>
      have hset : ∀ j, (samples.set i r)[j]? = if i = j then some r else samples[j]? := by
        intro j
        rw [List.getElem?_set]
        by_cases hij : i = j
        · subst hij
          simp only [if_true]
          rw [if_pos (by omega)]
        · simp only [hij, if_false]
      have hstep : processFrom gain (k + 1) i samples =
          processFrom gain k (i + 1) (samples.set i r) := by
        rw [processFrom]
        simp only [hs, hr, Option.bind_eq_bind, Option.some_bind]
      obtain ⟨ih1, ih2⟩ := ih (i + 1) (samples.set i r) (by rw [List.length_set]; omega)
      rw [hstep]
      refine ⟨fun out ho => ?_, fun hn => ?_⟩
      · obtain ⟨hol, hoj⟩ := ih1 out ho
        refine ⟨by rw [hol, List.length_set], fun j => ?_⟩
        rw [hoj j, hset]
        by_cases hij : i = j
        · subst hij
          rw [if_neg (by omega), if_pos rfl, if_pos (by omega), hs]
          simp only [Option.some_bind]
          exact hr.symm
        · rw [if_neg hij]
          by_cases hin : i + 1 ≤ j ∧ j < i + 1 + k
          · rw [if_pos hin, if_pos (by omega)]
          · rw [if_neg hin, if_neg (by omega)]
      · obtain ⟨j, s, h1, h2, h3, h4⟩ := ih2 hn
        refine ⟨j, s, by omega, by omega, ?_, h4⟩
        rw [hset, if_neg (by omega)] at h3
        exact h3

theorem playbackFrames_eq {ch : Int} (got : Nat) (hc : 1 ≤ ch) (hc' : 2 * ch < 2 ^ 31) :
    playbackFrames got ch = got / (2 * ch.toNat) := by
  unfold playbackFrames frame_bytes
  rw [toSizeT_of_lt (by omega) (by omega)]
  congr 1
  omega

theorem playback_count {ch : Int} {got : Nat} (hc : 1 ≤ ch) (hc' : 2 * ch < 2 ^ 31)
    (hg : got < 2 ^ 64) :
    playbackFrames got ch * toSizeT ch % 2 ^ 64 = got / (2 * ch.toNat) * ch.toNat ∧
    2 * (got / (2 * ch.toNat) * ch.toNat) ≤ got ∧
    got - 2 * (got / (2 * ch.toNat) * ch.toNat) = got % (2 * ch.toNat) := by
  rw [playbackFrames_eq got hc hc', toSizeT_of_lt (by omega) (by omega)]
  have hpos : 0 < 2 * ch.toNat := by omega
  have hdm := Nat.div_add_mod got (2 * ch.toNat)
  have hml := Nat.mod_lt got hpos
  generalize got / (2 * ch.toNat) = q at hdm ⊢
  generalize got % (2 * ch.toNat) = r at hdm hml ⊢
  have he : 2 * (q * ch.toNat) = 2 * ch.toNat * q := by ring
  refine ⟨Nat.mod_eq_of_lt (by omega), by omega, by omega⟩

/-- C15: in-place processing stays inside the bytes actually read.  For every
channel count `ch >= 1` (with `frame_bytes = 2 * ch` an `int`) and every byte
count `got`, the playback thread calls `user_process` with
`frames = got / (2 * ch)`; the loop of `user_process` runs over the
`n = frames * ch` samples at the indices below `n` (no wrap-around in
`size_t`), `2 * n <= got`, the bytes `2 * i` and `2 * i + 1` of every sample
`i < n` lie inside the first `got` bytes, and the `got - 2 * n = got mod (2 * ch)`
trailing bytes are not reached.  On every buffer that holds the `got` bytes,
also one that ends with them, no access is out of bounds: when the call
returns, the samples at the indices `>= n` are unchanged and, unless the gain
is `1.0f` (then nothing is written), each sample below `n` holds its processed
value; the call returns for every gain `g >= 0` and 16-bit samples, the
product `0 * inf` apart, and the only way not to return is an undefined cast of
a sample below `n`. -/
theorem playback_process_within_block (ch : Int) (got : Nat) (hc : 1 ≤ ch)
    (hc' : 2 * ch < 2 ^ 31) (hg : got < 2 ^ 64) :
    playbackFrames got ch = got / (2 * ch.toNat) ∧
    playbackFrames got ch * toSizeT ch % 2 ^ 64 = playbackFrames got ch * ch.toNat ∧
    2 * (playbackFrames got ch * ch.toNat) ≤ got ∧
    got - 2 * (playbackFrames got ch * ch.toNat) = got % (2 * ch.toNat) ∧
    (∀ i, i < playbackFrames got ch * ch.toNat → 2 * i + 1 < got) ∧
    ∀ (gain : F32) (samples : List Int), got / 2 ≤ samples.length →
      (∀ out, playbackProcess gain samples got ch = some out →
        out.length = samples.length ∧
        ∀ j, out[j]? =
          if F32.eq gain F32.one = false ∧ j < playbackFrames got ch * ch.toNat
          then (samples[j]?).bind (processSample gain) else samples[j]?) ∧
      (playbackProcess gain samples got ch = none →
        ∃ j s, j < playbackFrames got ch * ch.toNat ∧ samples[j]? = some s ∧
          processSample gain s = none) ∧
      (gain.Representable → F32.ge gain F32.zero = true →
        (∀ x ∈ samples, -32768 ≤ x ∧ x ≤ 32767) →
        (gain = F32.inf false → (0 : Int) ∉ samples) →
        ∃ out, playbackProcess gain samples got ch = some out) := by
  obtain ⟨h1, h2, h3⟩ := playback_count hc hc' hg
  have hf := playbackFrames_eq got hc hc'
  rw [← hf] at h1 h2 h3
  refine ⟨hf, h1, h2, h3, fun i hi => by omega, ?_⟩
  intro gain samples hlen
  have hn : playbackFrames got ch * ch.toNat ≤ samples.length := by omega
  unfold playbackProcess user_process
  rw [h1]
  cases hone : F32.eq gain F32.one with
  | true =>
    simp only [if_true, Option.some.injEq, Bool.true_eq_false, false_and, if_false,
      reduceCtorEq, false_implies, true_and]
    refine ⟨fun out ho => ?_, fun _ _ _ _ => ⟨samples, rfl⟩⟩
    subst ho
    exact ⟨rfl, fun _ => rfl⟩
  | false =>
    simp only [Bool.false_eq_true, if_false, true_and]
    obtain ⟨c1, c2⟩ := processFrom_cases gain (playbackFrames got ch * ch.toNat) 0 samples
      (by omega)
    refine ⟨fun out ho => ?_, fun hnone => ?_, fun _ _ _ _ => ?_⟩
    · obtain ⟨hl, hj⟩ := c1 out ho
      refine ⟨hl, fun j => ?_⟩
      rw [hj j]
      simp only [Nat.zero_le, true_and, Nat.zero_add]
    · obtain ⟨j, s, -, hj, hs, hr⟩ := c2 hnone
      exact ⟨j, s, by omega, hs, hr⟩
    · obtain ⟨out, ho, -, -⟩ := user_process_total gain samples (playbackFrames got ch) ch
        hone (by rw [h1]; exact hn)
      unfold user_process at ho
      rw [hone, h1] at ho
      simp only [Bool.false_eq_true, if_false] at ho
      exact ⟨out, ho⟩

/-- Witness of C15: stereo, `got = 10` bytes (two frames and a partial frame of
two bytes), gain `2.0f`, a buffer of five samples: the first four are doubled
and the fifth is left as it was. -/
theorem playback_process_within_block_witness :
    playbackFrames 10 2 = 2 ∧ 10 - 2 * (playbackFrames 10 2 * (2 : Int).toNat) = 10 % (2 * 2) ∧
    playbackProcess (F32.finite false 1 1) [1, -2, 3, 20000, 5] 10 2 =
      some [2, -4, 6, 32767, 5] ∧
    ∃ out, playbackProcess (F32.finite false 1 1) [1, -2, 3, 20000, 5] 10 2 = some out :=
  ⟨(playback_process_within_block 2 10 (by decide) (by decide) (by decide)).1,
   (playback_process_within_block 2 10 (by decide) (by decide) (by decide)).2.2.2.1,
   by decide,
   ((playback_process_within_block 2 10 (by decide) (by decide) (by decide)).2.2.2.2.2
     (F32.finite false 1 1) [1, -2, 3, 20000, 5] (by decide)).2.2
     ⟨by decide, by decide, by decide⟩ (by decide) (by decide) (by intro h; cases h)⟩

end Duplex
